import Mathlib

set_option maxHeartbeats 1000000

/-!
Verification development for the archetype storage and query core
(src/table.rs, src/column.rs, src/archetype.rs, src/query.rs).

Modelling conventions of the shallow embedding:
- Machine integers (u32, u64, usize, u128) are Nat.  The only place where
  two's complement matters is the i32-to-usize cast in
  ArchetypeWorldIndex::index, which is modelled exactly (sign extension,
  i.e. reduction mod 2 to the 64).
- Entity is a handle with a null sentinel; it is modelled as Option Nat,
  none being the null entity.
- AppendVec cells read as their default (0, or the null entity) before the
  first write, so the tick store of a column is a List Nat read through
  getD with default 0, and a write through load_alloc pads with zeroed
  cells first (loadAllocSet).
- Operations that panic on an out-of-range unwrap return Option.
- The typeless blob of a column stores one abstract Nat per row; running a
  registered drop function is recorded in the dropped log of the column,
  and a dirty record in the dirty log.
- Table::removes_action selects between its sparse path and its dense path
  with a branch on floating point values (r * log2 r < L - R).  Floating
  point is not embedded; the branch outcome is passed in as the Bool
  argument named sparse, and every claim about removes_action is settled
  for both values of that Bool.
- The FixedBitSet built by the dense path of removes_action is modelled by
  its characteristic function; iterating its set bits in ascending order
  is modelled by sorting (and deduplicating) the inserted rows.
-/

abbrev Entity := Option Nat

abbrev Row := Nat

abbrev Tick := Nat

/-- Flag bit COMPONENT_TICK of archetype.rs. -/
def COMPONENT_TICK : Nat := 1

/-- Component metadata, from ComponentInfo of archetype.rs.  The type id
(a u128) is the field id; drop_fn is kept only as its presence bit
has_drop; type_name and default_fn play no part in the claims. -/
structure ComponentInfo where
  index : Nat
  id : Nat
  mem_size : Nat
  tick_info : Nat
  has_drop : Bool
deriving DecidableEq

/-- The xor-accumulated archetype id of a component list, from
ComponentInfo::calc_id of archetype.rs. -/
def ComponentInfo.calc_id (vec : List ComponentInfo) : Nat :=
  vec.foldl (fun id c => id ^^^ c.id) 0

/-- A column of one archetype, from column.rs: component info, the blob
cells (one abstract value per row), the parallel tick store, the dirty
record log, and the log of rows whose drop function has run. -/
structure Column where
  info : ComponentInfo
  data : List Nat
  ticks : List Nat
  dirty : List (Entity × Row)
  dropped : List Row
deriving DecidableEq

/-- Column::new of column.rs: empty storage. -/
def Column.new (info : ComponentInfo) : Column :=
  { info := info, data := [], ticks := [], dirty := [], dropped := [] }

/-- Column::get_tick_unchecked of column.rs: a missing cell reads as the
default tick 0. -/
def Column.get_tick_unchecked (c : Column) (row : Row) : Tick :=
  c.ticks.getD row 0

/-- An AppendVec write through load_alloc: grow with default cells up to
the written index, then store. -/
def loadAllocSet (l : List Nat) (i v : Nat) : List Nat :=
  (l ++ List.replicate (i + 1 - l.length) 0).set i v

/-- Column::change_record of column.rs: no-op unless the tick flag is on;
writes the tick and a dirty record only when the new tick is strictly
greater than the stored one. -/
def Column.change_record (c : Column) (e : Entity) (row : Row) (tick : Tick) : Column :=
  if c.info.tick_info &&& COMPONENT_TICK = 0 then c
  else if tick ≤ c.ticks.getD row 0 then c
  else { c with ticks := loadAllocSet c.ticks row tick, dirty := c.dirty ++ [(e, row)] }

/-- Column::drop_row of column.rs: run the drop function if there is one
(recorded in the dropped log). -/
def Column.drop_row (c : Column) (row : Row) : Column :=
  if c.info.has_drop then { c with dropped := c.dropped ++ [row] } else c

/-- Apply a batch of (src, dst) cell copies in order, as the loops of
Column::collect do. -/
def applyMoves (l : List Nat) (action : List (Row × Row)) : List Nat :=
  action.foldl (fun a p => a.set p.2 (a.getD p.1 0)) l

/-- Column::collect of column.rs: apply the move pairs to the blob cells,
and in lockstep to the ticks when tick tracking is on.  The final blob
memory merge changes no cell values and is not represented. -/
def Column.collect (c : Column) (entity_len : Nat) (action : List (Row × Row)) : Column :=
  if c.info.tick_info &&& COMPONENT_TICK ≠ 0 then
    { c with data := applyMoves c.data action, ticks := applyMoves c.ticks action }
  else
    { c with data := applyMoves c.data action }

/-- The world archetype index, an i32 in archetype.rs.  val carries the
signed value. -/
structure ArchetypeWorldIndex where
  val : Int
deriving DecidableEq

/-- ArchetypeWorldIndex::index of archetype.rs: the Rust cast of an i32 to
a 64 bit usize, which sign extends, i.e. reduces mod 2 to the 64. -/
def ArchetypeWorldIndex.index (i : ArchetypeWorldIndex) : Nat :=
  (i.val % (2 : Int) ^ 64).toNat

/-- The null sentinel of ArchetypeWorldIndex.  pi_null gives an integer
type the maximum value of the type as its null, here i32 MAX. -/
def ArchetypeWorldIndex.null : ArchetypeWorldIndex :=
  { val := 2147483647 }

/-- A table, from table.rs: the entity vector, the index of the archetype
in the world, the sorted columns and the removal queue.  The membership
bitset is derivable from sorted_columns and not used by any claim. -/
structure Table where
  entities : List Entity
  index : ArchetypeWorldIndex
  sorted_columns : List Column
  removes : List Row
deriving DecidableEq

/-- Table::new of table.rs. -/
def Table.new (sorted_columns : List Column) : Table :=
  { entities := [], index := ArchetypeWorldIndex.null,
    sorted_columns := sorted_columns, removes := [] }

/-- Table::alloc of table.rs: reserve the next row of the entity vector
(initialized to the null entity) and return its index. -/
def Table.alloc (t : Table) : Table × Row :=
  ({ t with entities := t.entities ++ [Option.none] }, t.entities.length)

/-- Table::destroy of table.rs: none models the unwrap panic on an
unallocated row; a null slot is returned unchanged; otherwise run the
drop functions of all columns at the row, enqueue the row into removes,
null the slot and return the prior entity. -/
def Table.destroy (t : Table) (row : Row) : Option (Table × Entity) :=
  match t.entities[row]? with
  | Option.none => Option.none
  | Option.some e =>
    if e.isNone then Option.some (t, e)
    else Option.some
      ({ t with
          sorted_columns := t.sorted_columns.map (fun c => c.drop_row row),
          removes := t.removes ++ [row],
          entities := t.entities.set row Option.none }, e)

/-- Table::mark_remove of table.rs: as destroy but without running drop
functions. -/
def Table.mark_remove (t : Table) (row : Row) : Option (Table × Entity) :=
  match t.entities[row]? with
  | Option.none => Option.none
  | Option.some e =>
    if e.isNone then Option.some (t, e)
    else Option.some
      ({ t with
          removes := t.removes ++ [row],
          entities := t.entities.set row Option.none }, e)

/-- The two pointer loop of the sparse path of Table::removes_action,
operating on the sorted array of (row, row) pairs: walk index downward;
if the largest remaining removed row equals it, drop that row from the
range, else overwrite the first component of the entry at start with
index.  On exit the array is truncated to end. -/
def sparseLoop (start e index : Nat) (arr : List (Row × Row)) : Nat × List (Row × Row) :=
  if h : start < e then
    let index1 := index - 1
    if (arr.getD (e - 1) (0, 0)).1 = index1 then
      sparseLoop start (e - 1) index1 arr
    else
      sparseLoop (start + 1) e index1 (arr.set start (index1, (arr.getD start (0, 0)).2))
  else (index, arr.take e)
termination_by e - start
decreasing_by
  all_goals omega

/-- The inner loop of the dense path of Table::removes_action: scan the
tail downward from e looking for a live slot.  Sum.inl e means the whole
function returns e (the next removed row is at or above e); Sum.inr s
means the pair (s, row) is emitted and the scan resumes below s. -/
def denseInner (mem : Nat → Bool) (row : Nat) (e : Nat) : Sum Nat Nat :=
  if h : e ≤ row then Sum.inl e
  else
    if mem (e - 1) then denseInner mem row (e - 1)
    else Sum.inr (e - 1)
termination_by e
decreasing_by
  omega

/-- The outer loop of the dense path of Table::removes_action over the
ascending removed rows. -/
def denseGo (mem : Nat → Bool) : List Nat → Nat → List (Row × Row) → Nat × List (Row × Row)
  | [], e, acc => (e, acc)
  | row :: rest, e, acc =>
    match denseInner mem row e with
    | Sum.inl ef => (ef, acc)
    | Sum.inr e1 => denseGo mem rest e1 (acc ++ [(e1, row)])

/-- Table::removes_action of table.rs.  The argument sparse stands for
the floating point branch r * log2 r < L - R selecting the sort based
sparse path over the bitset based dense path; claims are settled for both
values.  Sorting the (row, row) pairs lexicographically is sorting the
rows; the bitset is modelled by its characteristic function and its
ascending ones iteration by the sorted deduplicated row list. -/
def Table.removes_action (removes : List Row) (remove_len : Nat) (entity_len : Nat)
    (sparse : Bool) : Nat × List (Row × Row) :=
  if remove_len ≥ entity_len then (0, [])
  else if remove_len = 1 then
    let remove_row := removes.headD 0
    if remove_row + 1 < entity_len then (entity_len - 1, [(entity_len - 1, remove_row)])
    else (entity_len - 1, [])
  else if sparse then
    let arr := (List.insertionSort (· ≤ ·) removes).map (fun r => (r, r))
    sparseLoop 0 arr.length entity_len arr
  else
    let ones := (List.insertionSort (· ≤ ·) removes).dedup
    denseGo (fun i => decide (i ∈ removes)) ones entity_len []

/-- Table::settle_columns of table.rs: settle every column with the move
pairs (Column::collect carries the per column work). -/
def Table.settle_columns (t : Table) (len additional : Nat) (action : List (Row × Row)) : Table :=
  { t with sorted_columns := t.sorted_columns.map (fun c => c.collect len action) }

/-- Table::settle of table.rs: no-op when the removal queue is empty;
otherwise compute the move pairs, clear removes, settle the columns,
move the entity slots (logging the world.replace_row calls as the middle
component of the result) and truncate the entity vector to the new
length.  The final memory merge of the entity vector changes no value. -/
def Table.settle (sparse : Bool) (t : Table) : Table × List (Entity × Row) × Bool :=
  if t.removes.length = 0 then (t, [], true)
  else
    let ra := Table.removes_action t.removes t.removes.length t.entities.length sparse
    let t1 := Table.settle_columns { t with removes := [] } ra.1 0 ra.2
    let moved := ra.2.foldl
      (fun st p =>
        let e := st.1.getD p.1 Option.none
        ((st.1.set p.1 Option.none).set p.2 e, st.2 ++ [(e, p.2)]))
      (t1.entities, [])
    ({ t1 with entities := moved.1.take ra.1 }, moved.2, true)

/-- An archetype, from archetype.rs: the 128 bit id and the table.  The
name and the ready flag play no part in the claims. -/
structure Archetype where
  id : Nat
  table : Table
deriving DecidableEq

/-- Archetype::mark_remove of archetype.rs: forward to Table::mark_remove
when the cast world index is strictly positive, else return the null
entity. -/
def Archetype.mark_remove (a : Archetype) (row : Row) : Option (Archetype × Entity) :=
  if a.table.index.index > 0 then
    (a.table.mark_remove row).map (fun p => ({ a with table := p.1 }, p.2))
  else Option.some (a, Option.none)

/-- Destination archetype information, from ArchetypeInfo of archetype.rs.
The cached DefaultHasher hash of the index sequence is not modelled. -/
structure ArchetypeInfo where
  id : Nat
  sorted_components : List Column
deriving DecidableEq

/-- ArchetypeInfo::new of archetype.rs: the id is the xor of the component
ids, accumulated left to right from 0. -/
def ArchetypeInfo.new (sorted_components : List Column) : ArchetypeInfo :=
  { id := sorted_components.foldl (fun id c => id ^^^ c.info.id) 0,
    sorted_components := sorted_components }

/-- The columns produced by Archetype::alter1, pushed in source order. -/
structure AlterRes where
  adding : List Column
  moving : List Column
  removing : List Column
  result : List Column
deriving DecidableEq

/-- Push a column onto adding and onto the destination. -/
def AlterRes.pushAdd (r : AlterRes) (c : Column) : AlterRes :=
  { r with adding := c :: r.adding, result := c :: r.result }

/-- Push a column onto moving and onto the destination. -/
def AlterRes.pushMove (r : AlterRes) (c : Column) : AlterRes :=
  { r with moving := c :: r.moving, result := c :: r.result }

/-- Push a column onto removing only (it leaves the destination). -/
def AlterRes.pushRemove (r : AlterRes) (c : Column) : AlterRes :=
  { r with removing := c :: r.removing }

/-- The consecutive duplicate skipping of the op loop of
Archetype::alter1, lifted out as a list function: pre is the pre_index
register (none for the initial null component index). -/
def dedupOps (pre : Option Nat) : List (Nat × Bool) → List (Nat × Bool)
  | [] => []
  | op :: ops =>
    if pre = Option.some op.1 then dedupOps pre ops
    else op :: dedupOps (Option.some op.1) ops

mutual

/-- The op loop of Archetype::alter1: alter1Go consumes the next op after
the duplicate check; the trailing source columns all move.  world models
World::get_column, giving the registered column of a component index. -/
def alter1Go (world : Nat → Column) (move : Bool) (pre : Option Nat) :
    List Column → List (Nat × Bool) → AlterRes
  | cols, [] => { adding := [], moving := cols, removing := [], result := cols }
  | cols, op :: ops =>
    if pre = Option.some op.1 then alter1Go world move pre cols ops
    else alter1Col world move cols op.1 op.2 ops
termination_by cols ops => (ops.length, cols.length, 0)

/-- The inner column loop of Archetype::alter1, processing one op (i, add)
against the remaining source columns. -/
def alter1Col (world : Nat → Column) (move : Bool) :
    List Column → Nat → Bool → List (Nat × Bool) → AlterRes
  | [], i, add, ops =>
    let rest := alter1Go world move (Option.some i) [] ops
    if add then rest.pushAdd (world i) else rest
  | c :: cs, i, add, ops =>
    if i < c.info.index then
      let rest := alter1Go world move (Option.some i) (c :: cs) ops
      if add then rest.pushAdd (world i) else rest
    else if c.info.index < i then
      (alter1Col world move cs i add ops).pushMove c
    else
      let rest := alter1Go world move (Option.some i) cs ops
      if add then
        if move then rest.pushMove c else rest.pushAdd c
      else rest.pushRemove c
termination_by cols i add ops => (ops.length, cols.length, 1)

end

/-- Archetype::alter1 of archetype.rs: run the merge walk from an empty
pre_index and build the destination ArchetypeInfo from the resulting
column list. -/
def Archetype.alter1 (a : Archetype) (world : Nat → Column)
    (sorted_add_removes : List (Nat × Bool)) (existed_adding_is_move : Bool) :
    AlterRes × ArchetypeInfo :=
  let r := alter1Go world existed_adding_is_move Option.none
      a.table.sorted_columns sorted_add_removes
  (r, ArchetypeInfo.new r.result)

/-- Query errors, from query.rs. -/
inductive QueryError where
  | MissingReadAccess
  | MissingWriteAccess
  | MissingComponent
  | NoSuchEntity
  | NoSuchArchetype
deriving DecidableEq

/-- The value stored for an entity in the world registry: the world index
of its archetype (none modelling the null sentinel), its key and its
data pointer (abstracted to a Nat). -/
structure EntityValue where
  archetype_index : Option Nat
  key : Nat
  value : Nat
deriving DecidableEq

/-- The world as seen by QueryState::check: the entity registry. -/
structure WorldQ where
  entitys : Nat → Option EntityValue

/-- The part of QueryState that drives QueryState::get: the map from
world archetype indices to local indices (the HashMap modelled by its
lookup function) and the last cache.  The local index stored in last
selects fetch state whose content does not affect errors, so the fetched
item is modelled as the local index with the key and value of the
entity. -/
structure QueryState where
  map : Option Nat → Option Nat
  last : Option Nat × Nat

/-- QueryState::new of query.rs: empty map, null last archetype index. -/
def QueryState.new : QueryState :=
  { map := fun _ => Option.none, last := (Option.none, 0) }

/-- QueryState::check of query.rs: look the entity up in the world, then
resolve its archetype through the map unless the last cache already holds
that archetype index.  Note that the source never writes the first
component of last. -/
def QueryState.check (last : Option Nat × Nat) (map : Option Nat → Option Nat)
    (world : WorldQ) (entity : Nat) :
    Except QueryError ((Option Nat × Nat) × Nat × Nat) :=
  match world.entitys entity with
  | Option.none => Except.error QueryError.NoSuchEntity
  | Option.some v =>
    if last.fst = v.archetype_index then Except.ok (last, v.key, v.value)
    else
      match map v.archetype_index with
      | Option.none => Except.error QueryError.NoSuchArchetype
      | Option.some j => Except.ok ((last.fst, j), v.key, v.value)

/-- QueryState::get of query.rs: check, then fetch.  Q::fetch cannot fail
and is modelled as returning the key and value delivered by check,
together with the updated state. -/
def QueryState.get (qs : QueryState) (world : WorldQ) (entity : Nat) (tick : Tick) :
    Except QueryError (QueryState × Nat × Nat) :=
  match QueryState.check qs.last qs.map world entity with
  | Except.error err => Except.error err
  | Except.ok r => Except.ok ({ qs with last := r.fst }, r.snd)

/-- A row view as the query iterator sees it (ArchetypeData of query.rs):
the null bit, the stored tick and the entity of the row. -/
structure ArchetypeData where
  isNull : Bool
  tick : Tick
  entity : Nat
deriving DecidableEq

/-- One archetype pass of QueryIter::iter_normal of query.rs: walk every
row, yield those whose tick t satisfies t strictly between 0 and the
query tick. -/
def iter_normal_rows (tick : Tick) : List (Nat × ArchetypeData) → List (Nat × ArchetypeData)
  | [] => []
  | r :: rest =>
    if 0 < r.2.tick ∧ r.2.tick < tick then r :: iter_normal_rows tick rest
    else iter_normal_rows tick rest

/-- The archetype walk of QueryIter::iter_normal (the reversal is applied
by iter_normal). -/
def iter_normal_go (tick : Tick) : List (List (Nat × ArchetypeData)) → List (Nat × ArchetypeData)
  | [] => []
  | ar :: rest => iter_normal_rows tick ar ++ iter_normal_go tick rest

/-- QueryIter::iter_normal of query.rs over the whole query: archetypes
are walked in reverse registration order; the full yielded sequence of
repeated next calls is collected. -/
def iter_normal (tick : Tick) (vec : List (List (Nat × ArchetypeData))) :
    List (Nat × ArchetypeData) :=
  iter_normal_go tick vec.reverse

/-- One archetype pass of QueryIter::iter_record of query.rs: walk the
single change log (keys), skip null rows, yield rows whose tick t
satisfies t strictly between 0 and the query tick.  get models
Archetype::get on a key. -/
def iter_record_keys (tick : Tick) (get : Nat → ArchetypeData) :
    List Nat → List (Nat × ArchetypeData)
  | [] => []
  | k :: rest =>
    let data := get k
    if data.isNull then iter_record_keys tick get rest
    else if 0 < data.tick ∧ data.tick < tick then (k, data) :: iter_record_keys tick get rest
    else iter_record_keys tick get rest

/-- The archetype walk of QueryIter::iter_record (single listener mode). -/
def iter_record_go (tick : Tick) :
    List ((Nat → ArchetypeData) × List Nat) → List (Nat × ArchetypeData)
  | [] => []
  | ar :: rest => iter_record_keys tick ar.1 ar.2 ++ iter_record_go tick rest

/-- QueryIter::iter_record of query.rs over the whole query (archetypes in
reverse registration order, one change log each). -/
def iter_record (tick : Tick) (vec : List ((Nat → ArchetypeData) × List Nat)) :
    List (Nat × ArchetypeData) :=
  iter_record_go tick vec.reverse

/-- One key list pass of QueryIter::iter_records of query.rs (multi
listener mode), threading the seen set: skip null rows, skip when the
tick t satisfies t = 0 AND t = tick (the source condition, verbatim),
skip already seen entities, else record the entity as seen and yield. -/
def iter_records_keys (tick : Tick) (get : Nat → ArchetypeData) :
    List Nat → List Nat → List (Nat × ArchetypeData) × List Nat
  | seen, [] => ([], seen)
  | seen, k :: rest =>
    let data := get k
    if data.isNull then iter_records_keys tick get seen rest
    else if data.tick = 0 ∧ data.tick = tick then iter_records_keys tick get seen rest
    else if data.entity ∈ seen then iter_records_keys tick get seen rest
    else
      let r := iter_records_keys tick get (data.entity :: seen) rest
      ((k, data) :: r.1, r.2)

/-- The archetype walk of QueryIter::iter_records: within an archetype the
change logs are chained in order; the seen set built in new is carried
across archetypes (the source never clears it when it switches
archetype). -/
def iter_records_go (tick : Tick) :
    List Nat → List ((Nat → ArchetypeData) × List (List Nat)) → List (Nat × ArchetypeData)
  | _, [] => []
  | seen, ar :: rest =>
    let r := iter_records_keys tick ar.1 seen ar.2.flatten
    r.1 ++ iter_records_go tick r.2 rest

/-- QueryIter::iter_records of query.rs over the whole query (archetypes
in reverse registration order, several change logs each, starting from an
empty seen set). -/
def iter_records (tick : Tick) (vec : List ((Nat → ArchetypeData) × List (List Nat))) :
    List (Nat × ArchetypeData) :=
  iter_records_go tick [] vec.reverse

/-! Concrete fixtures used by witness theorems. -/

/-- A sample component with tick tracking on and no drop function. -/
def infoTick : ComponentInfo :=
  { index := 0, id := 0, mem_size := 4, tick_info := 1, has_drop := false }

/-- A sample component with a drop function. -/
def infoDrop : ComponentInfo :=
  { index := 0, id := 10, mem_size := 4, tick_info := 1, has_drop := true }

/-- A sample component with no tick tracking and no drop function. -/
def infoPlain : ComponentInfo :=
  { index := 1, id := 11, mem_size := 4, tick_info := 0, has_drop := false }

/-- A sample two column table with two live rows. -/
def sampleTable : Table :=
  { entities := [Option.some 4, Option.some 9], index := ArchetypeWorldIndex.null,
    sorted_columns := [Column.new infoDrop, Column.new infoPlain], removes := [] }


/-- A sample table with one live row and the null world index. -/
def tableLive : Table :=
  { entities := [Option.some 7], index := ArchetypeWorldIndex.null,
    sorted_columns := [], removes := [] }

/-- The state of tableLive after its row 0 is marked removed. -/
def tableLiveMarked : Table :=
  { entities := [Option.none], index := ArchetypeWorldIndex.null,
    sorted_columns := [], removes := [0] }

/-- A sample table whose archetype sits at world index 0. -/
def tableZeroIndex : Table :=
  { entities := [Option.some 7], index := { val := 0 },
    sorted_columns := [], removes := [] }

/-- A sample table whose archetype sits at world index 2. -/
def tableTwoIndex : Table :=
  { entities := [Option.some 7], index := { val := 2 },
    sorted_columns := [], removes := [] }

/-- A sample query state mapping world archetype 3 to local index 0. -/
def qsW : QueryState :=
  { map := fun i => if i = Option.some 3 then Option.some 0 else Option.none,
    last := (Option.none, 0) }

/-- A sample world with one entity (handle 5) in archetype 3. -/
def worldW : WorldQ :=
  { entitys := fun n =>
      if n = 5 then Option.some { archetype_index := Option.some 3, key := 11, value := 13 }
      else Option.none }


/-! Specification side descriptions of the alter1 partition.  These
follow the words of the claim (which restates the documented algorithm)
and are compared against the alter1 merge walk. -/

/-- Linear search for the source column of a component index. -/
def colFind (cols : List Column) (i : Nat) : Option Column :=
  cols.find? (fun c => c.info.index == i)

/-- The effective operation recorded for a component index (the first
one in the operation list). -/
def opLookup (i : Nat) (ops : List (Nat × Bool)) : Option Bool :=
  List.lookup i ops

/-- Claim description of the adding list: an effective add whose
component is absent from the source contributes the registered world
column; an add whose component is present contributes the source column
only when existed adding is move is off. -/
def addingSpec (world : Nat → Column) (move : Bool) (cols : List Column)
    (ops : List (Nat × Bool)) : List Column :=
  ops.filterMap (fun op =>
    if op.2 then
      match colFind cols op.1 with
      | Option.some c => if move then Option.none else Option.some c
      | Option.none => Option.some (world op.1)
    else Option.none)

/-- Claim description of the moving list: source columns without an
effective operation, plus (when existed adding is move is on) source
columns with an effective add. -/
def movingSpec (move : Bool) (cols : List Column) (ops : List (Nat × Bool)) : List Column :=
  cols.filter (fun c =>
    match opLookup c.info.index ops with
    | Option.none => true
    | Option.some b => b && move)

/-- Claim description of the removing list: source columns with an
effective remove. -/
def removingSpec (cols : List Column) (ops : List (Nat × Bool)) : List Column :=
  cols.filter (fun c => opLookup c.info.index ops == Option.some false)

/-- The full claim description of one alter1 walk: the three partition
lists as described by the claim, the destination sorted ascending by
component index, and the destination index set being exactly (source
minus effective removes) union effective adds. -/
abbrev AlterSpec (world : Nat → Column) (move : Bool) (cols : List Column)
    (ops : List (Nat × Bool)) (r : AlterRes) : Prop :=
  r.adding = addingSpec world move cols ops
  ∧ r.moving = movingSpec move cols ops
  ∧ r.removing = removingSpec cols ops
  ∧ List.Pairwise (· < ·) (r.result.map (fun c => c.info.index))
  ∧ ∀ i : Nat, (∃ d ∈ r.result, d.info.index = i)
      ↔ ((∃ c ∈ cols, c.info.index = i) ∧ opLookup i ops ≠ Option.some false)
        ∨ opLookup i ops = Option.some true


/-- A sample world column registry whose column for index n carries
component index n. -/
def worldFix : Nat → Column := fun n =>
  Column.new { index := n, id := n, mem_size := 0, tick_info := 0, has_drop := false }

/-- A sample archetype with source components 1 and 3. -/
def arFix : Archetype :=
  { id := 0,
    table :=
      { entities := [], index := { val := 1 },
        sorted_columns := [worldFix 1, worldFix 3], removes := [] } }

/-! Helper lemmas about list reads and writes. -/

theorem getD_set_self (l : List Nat) (i v : Nat) (h : i < l.length) :
    (l.set i v).getD i 0 = v := by
  simp [List.getD_eq_getElem?_getD, List.getElem?_set, h]

theorem getD_set_ne (l : List Nat) (i j v : Nat) (h : i ≠ j) :
    (l.set i v).getD j 0 = l.getD j 0 := by
  simp [List.getD_eq_getElem?_getD, List.getElem?_set, h]

theorem getD_append_replicate_zero (l : List Nat) (n j : Nat) :
    (l ++ List.replicate n 0).getD j 0 = l.getD j 0 := by
  rcases Nat.lt_or_ge j l.length with h | h
  · rw [List.getD_eq_getElem?_getD, List.getElem?_append_left h, ← List.getD_eq_getElem?_getD]
  · rw [List.getD_eq_getElem?_getD, List.getElem?_append_right h, List.getElem?_replicate,
      List.getD_eq_getElem?_getD, List.getElem?_eq_none h]
    split <;> rfl

theorem loadAllocSet_getD_self (l : List Nat) (i v : Nat) :
    (loadAllocSet l i v).getD i 0 = v := by
  apply getD_set_self
  simp only [List.length_append, List.length_replicate]
  omega

theorem loadAllocSet_getD_ne (l : List Nat) (i v j : Nat) (h : i ≠ j) :
    (loadAllocSet l i v).getD j 0 = l.getD j 0 := by
  unfold loadAllocSet
  rw [getD_set_ne _ _ _ _ h, getD_append_replicate_zero]

theorem foldl_xor_eq_foldr (f : Column → Nat) :
    ∀ (l : List Column) (a : Nat),
      l.foldl (fun x c => x ^^^ f c) a = a ^^^ (l.map f).foldr (· ^^^ ·) 0
  | [], a => by simp
  | c :: l, a => by
    simp only [List.foldl_cons, List.map_cons, List.foldr_cons]
    rw [foldl_xor_eq_foldr f l (a ^^^ f c), Nat.xor_assoc]

/-- C4: the id computed by ArchetypeInfo::new equals the xor of the 128
bit ids of the components of the archetype (0 for an archetype with zero
components), and the same holds for the destination ArchetypeInfo
computed by Archetype::alter1. -/
theorem archetype_id_is_xor_of_component_ids (cs : List Column) (a : Archetype)
    (world : Nat → Column) (ops : List (Nat × Bool)) (move : Bool) :
    (ArchetypeInfo.new cs).id = (cs.map (fun c => c.info.id)).foldr (· ^^^ ·) 0
    ∧ (ArchetypeInfo.new []).id = 0
    ∧ (a.alter1 world ops move).2.id
        = ((a.alter1 world ops move).2.sorted_components.map
            (fun c => c.info.id)).foldr (· ^^^ ·) 0 := by
  have key : ∀ l : List Column,
      (ArchetypeInfo.new l).id = (l.map (fun c => c.info.id)).foldr (· ^^^ ·) 0 := by
    intro l
    show l.foldl (fun id c => id ^^^ c.info.id) 0 = _
    rw [foldl_xor_eq_foldr (fun c => c.info.id) l 0, Nat.zero_xor]
  exact ⟨key cs, rfl, key _⟩

/-- C5: with tick tracking enabled, a stored tick is 0 before the first
record, change_record leaves the stored tick unchanged when the new tick
is not greater and sets it otherwise, and the stored tick of every row is
monotone non-decreasing under change_record. -/
theorem change_record_tick_monotone (info : ComponentInfo) (c : Column) (e : Entity)
    (row r : Row) (t : Tick) :
    (Column.new info).get_tick_unchecked r = 0
    ∧ (c.info.tick_info &&& COMPONENT_TICK ≠ 0 →
        (t ≤ c.get_tick_unchecked row →
          (c.change_record e row t).get_tick_unchecked row = c.get_tick_unchecked row)
        ∧ (c.get_tick_unchecked row < t →
          (c.change_record e row t).get_tick_unchecked row = t))
    ∧ c.get_tick_unchecked r ≤ (c.change_record e row t).get_tick_unchecked r := by
  refine ⟨rfl, fun hflag => ⟨fun hle => ?_, fun hlt => ?_⟩, ?_⟩
  · simp only [Column.change_record, Column.get_tick_unchecked] at *
    rw [if_neg hflag, if_pos hle]
  · simp only [Column.change_record, Column.get_tick_unchecked] at *
    rw [if_neg hflag, if_neg (Nat.not_le.mpr hlt)]
    exact loadAllocSet_getD_self c.ticks row t
  · simp only [Column.change_record, Column.get_tick_unchecked]
    by_cases hflag : c.info.tick_info &&& COMPONENT_TICK = 0
    · rw [if_pos hflag]
    · rw [if_neg hflag]
      by_cases hle : t ≤ c.ticks.getD row 0
      · rw [if_pos hle]
      · rw [if_neg hle]
        by_cases hr : row = r
        · subst hr
          show c.ticks.getD row 0 ≤ (loadAllocSet c.ticks row t).getD row 0
          rw [loadAllocSet_getD_self]
          exact le_of_lt (not_le.mp hle)
        · show c.ticks.getD r 0 ≤ (loadAllocSet c.ticks row t).getD r 0
          rw [loadAllocSet_getD_ne c.ticks row t r hr]

/-- C5 witness at a concrete column with tick tracking on. -/
theorem change_record_tick_monotone_witness :
    (Column.new infoTick).get_tick_unchecked 3 = 0
    ∧ ((Column.new infoTick).change_record Option.none 2 5).get_tick_unchecked 2 = 5 :=
  ⟨(change_record_tick_monotone infoTick (Column.new infoTick) Option.none 2 3 5).1,
   ((change_record_tick_monotone infoTick (Column.new infoTick) Option.none 2 2 5).2.1
      (by decide)).2 (by decide)⟩

/-- C6: destroying a live row runs the drop function of every column that
has one at that row, enqueues the row into removes, replaces the entity
slot with the null entity, and returns the prior entity. -/
theorem destroy_live_row (t : Table) (row : Row) (en : Nat)
    (h : t.entities[row]? = Option.some (Option.some en)) :
    ∃ t1 : Table, Table.destroy t row = Option.some (t1, Option.some en)
      ∧ t1.entities = t.entities.set row Option.none
      ∧ t1.removes = t.removes ++ [row]
      ∧ t1.index = t.index
      ∧ ∀ i : Nat, t1.sorted_columns[i]? = (t.sorted_columns[i]?).map (fun c =>
          if c.info.has_drop then { c with dropped := c.dropped ++ [row] } else c) := by
  refine ⟨{ t with
      sorted_columns := t.sorted_columns.map (fun c => c.drop_row row),
      removes := t.removes ++ [row],
      entities := t.entities.set row Option.none }, ?_, rfl, rfl, rfl, ?_⟩
  · simp [Table.destroy, h]
  · intro i
    show (t.sorted_columns.map (fun c => c.drop_row row))[i]? = _
    rw [List.getElem?_map]
    cases t.sorted_columns[i]? <;> simp [Column.drop_row]

/-- C6 witness at a concrete two column table with a live row. -/
theorem destroy_live_row_witness :
    ∃ t1 : Table, Table.destroy sampleTable 1 = Option.some (t1, Option.some 9)
      ∧ t1.entities = sampleTable.entities.set 1 Option.none
      ∧ t1.removes = sampleTable.removes ++ [1]
      ∧ t1.index = sampleTable.index
      ∧ ∀ i : Nat, t1.sorted_columns[i]? = (sampleTable.sorted_columns[i]?).map (fun c =>
          if c.info.has_drop then { c with dropped := c.dropped ++ [1] } else c) :=
  destroy_live_row sampleTable 1 9 (by rfl)

/-- C7: settle on an empty removal queue returns true and leaves the
table (entity vector, columns, removal queue) unchanged, and settle is
idempotent on the table state. -/
theorem settle_empty_noop_and_idempotent (sp sq : Bool) (t : Table) :
    (t.removes = [] → Table.settle sp t = (t, [], true))
    ∧ (Table.settle sq (Table.settle sp t).fst).fst = (Table.settle sp t).fst := by
  have hempty : ∀ (b : Bool) (u : Table), u.removes = [] → Table.settle b u = (u, [], true) := by
    intro b u hu
    simp [Table.settle, hu]
  refine ⟨hempty sp t, ?_⟩
  have h1 : (Table.settle sp t).fst.removes = [] := by
    by_cases h : t.removes = []
    · rw [hempty sp t h]
      exact h
    · have hlen : ¬t.removes.length = 0 := by
        simpa [List.length_eq_zero] using h
      simp only [Table.settle]
      rw [if_neg hlen]
      rfl
  rw [hempty sq _ h1]

/-- Concrete instance of settle_empty_noop_and_idempotent: the sample
table has an empty removal queue and settling it is a no-op. -/
theorem settle_empty_noop_witness :
    sampleTable.removes = [] ∧ Table.settle true sampleTable = (sampleTable, [], true) :=
  ⟨rfl, (settle_empty_noop_and_idempotent true true sampleTable).1 rfl⟩

/-- C8: QueryState::get returns NoSuchEntity exactly when the entity is
not in the world registry, returns NoSuchArchetype exactly when the
entity exists but the world index of its archetype is not in the matched
archetype map, and succeeds otherwise; moreover a fresh QueryState has a
null last archetype index and get never changes it (the source never
writes it), which justifies the hypothesis on last. -/
theorem query_get_error_spec (qs : QueryState) (world : WorldQ) (entity : Nat) (tick : Tick)
    (hlast : qs.last.fst = Option.none)
    (hnn : ∀ v, world.entitys entity = Option.some v → v.archetype_index ≠ Option.none) :
    (QueryState.get qs world entity tick = Except.error QueryError.NoSuchEntity
        ↔ world.entitys entity = Option.none)
    ∧ (∀ v, world.entitys entity = Option.some v →
        (QueryState.get qs world entity tick = Except.error QueryError.NoSuchArchetype
          ↔ qs.map v.archetype_index = Option.none))
    ∧ (∀ v j, world.entitys entity = Option.some v →
        qs.map v.archetype_index = Option.some j →
        QueryState.get qs world entity tick
          = Except.ok ({ qs with last := (qs.last.fst, j) }, v.key, v.value))
    ∧ QueryState.new.last.fst = Option.none
    ∧ (∀ qs1 k v, QueryState.get qs world entity tick = Except.ok (qs1, k, v) →
        qs1.last.fst = qs.last.fst) := by
  cases hw : world.entitys entity with
  | none =>
    refine ⟨?_, ?_, ?_, rfl, ?_⟩
    · simp [QueryState.get, QueryState.check, hw]
    · intro v hv
      exact Option.noConfusion hv
    · intro v j hv _
      exact Option.noConfusion hv
    · intro qs1 k v hok
      simp [QueryState.get, QueryState.check, hw] at hok
  | some v0 =>
    have hne : ¬qs.last.fst = v0.archetype_index := by
      rw [hlast]
      exact fun hcontra => hnn v0 hw hcontra.symm
    cases hm : qs.map v0.archetype_index with
    | none =>
      refine ⟨?_, ?_, ?_, rfl, ?_⟩
      · simp [QueryState.get, QueryState.check, hw, hne, hm]
      · intro v hv
        injection hv with h2
        subst h2
        simp [QueryState.get, QueryState.check, hw, hne, hm]
      · intro v j hv hj
        injection hv with h2
        subst h2
        rw [hm] at hj
        exact Option.noConfusion hj
      · intro qs1 k v hok
        simp [QueryState.get, QueryState.check, hw, hne, hm] at hok
    | some j0 =>
      refine ⟨?_, ?_, ?_, rfl, ?_⟩
      · simp [QueryState.get, QueryState.check, hw, hne, hm]
      · intro v hv
        injection hv with h2
        subst h2
        simp [QueryState.get, QueryState.check, hw, hne, hm]
      · intro v j hv hj
        injection hv with h2
        subst h2
        rw [hm] at hj
        injection hj with h3
        subst h3
        simp [QueryState.get, QueryState.check, hw, hne, hm]
      · intro qs1 k v hok
        simp [QueryState.get, QueryState.check, hw, hne, hm] at hok
        rw [← hok.1]

/-- C8 witness: a concrete world with one entity in archetype 3, mapped
to local index 0 by the query. -/
theorem query_get_error_spec_witness :
    QueryState.get qsW worldW 5 7
      = Except.ok ({ qsW with last := (qsW.last.fst, 0) }, 11, 13) :=
  (query_get_error_spec qsW worldW 5 7 rfl
    (by
      intro v hv
      injection hv with h2
      exact h2 ▸ (by decide))).2.2.1
    { archetype_index := Option.some 3, key := 11, value := 13 } 0 rfl rfl

/-- C9 counterexample: the very first row reserved by Table::alloc on a
fresh table is row 0, so it is false that every reserved row is
nonzero. -/
theorem alloc_row_zero_counterexample :
    (Table.alloc (Table.new [])).snd = 0
    ∧ ¬(∀ t : Table, 0 < (Table.alloc t).snd) :=
  ⟨rfl, fun hall => Nat.lt_irrefl 0 (hall (Table.new []))⟩

/-- C9 amended: Table::alloc returns the current entity count as the
reserved row, so rows are handed out in increasing order starting from
row 0 on a fresh table. -/
theorem alloc_returns_entity_count (t : Table) :
    (Table.alloc t).snd = t.entities.length
    ∧ (Table.alloc t).fst.entities.length = t.entities.length + 1
    ∧ (Table.alloc (Table.new [])).snd = 0 := by
  refine ⟨rfl, ?_, rfl⟩
  simp [Table.alloc]

/-- C10 counterexample: an archetype whose world index is the null
sentinel does not return the null entity and does not leave the table
unchanged on a live row; the cast of the null index is positive, so
Table::mark_remove is reached and nulls the slot, enqueues the row and
returns the stored entity. -/
theorem mark_remove_null_index_counterexample :
    Archetype.mark_remove { id := 0, table := tableLive } 0
      = Option.some ({ id := 0, table := tableLiveMarked }, Option.some 7)
    ∧ Archetype.mark_remove { id := 0, table := tableLive } 0
      ≠ Option.some ({ id := 0, table := tableLive }, Option.none) :=
  ⟨rfl, by decide⟩

/-- C10 amended: Archetype::mark_remove forwards to Table::mark_remove
exactly when the cast world index is strictly positive; for world index 0
it returns the null entity and leaves the table unchanged even on a live
row.  The null sentinel index casts to a positive value and therefore
also forwards. -/
theorem mark_remove_index_guard (a : Archetype) (row : Row) :
    (a.table.index.index = 0 → Archetype.mark_remove a row = Option.some (a, Option.none))
    ∧ (0 < a.table.index.index →
        Archetype.mark_remove a row
          = (a.table.mark_remove row).map (fun p => ({ a with table := p.1 }, p.2)))
    ∧ 0 < ArchetypeWorldIndex.null.index := by
  refine ⟨fun h0 => ?_, fun hp => ?_, by decide⟩
  · simp [Archetype.mark_remove, h0]
  · simp [Archetype.mark_remove, hp]

/-- C10 amended witness: both sides of the guard at concrete archetypes. -/
theorem mark_remove_index_guard_witness :
    Archetype.mark_remove { id := 0, table := tableZeroIndex } 0
      = Option.some ({ id := 0, table := tableZeroIndex }, Option.none)
    ∧ Archetype.mark_remove { id := 1, table := tableTwoIndex } 0
      = (tableTwoIndex.mark_remove 0).map (fun p => ({ id := 1, table := p.1 }, p.2)) :=
  ⟨(mark_remove_index_guard { id := 0, table := tableZeroIndex } 0).1 (by decide),
   (mark_remove_index_guard { id := 1, table := tableTwoIndex } 0).2.1 (by decide)⟩

theorem iter_normal_rows_tick_window (tick : Tick) (rows : List (Nat × ArchetypeData)) :
    ∀ r ∈ iter_normal_rows tick rows, 0 < r.2.tick ∧ r.2.tick < tick := by
  induction rows with
  | nil =>
    intro r hr
    cases hr
  | cons a rest ih =>
    intro r hr
    by_cases h : 0 < a.2.tick ∧ a.2.tick < tick
    · rw [iter_normal_rows, if_pos h] at hr
      rcases List.mem_cons.mp hr with heq | hmem
      · exact heq ▸ h
      · exact ih r hmem
    · rw [iter_normal_rows, if_neg h] at hr
      exact ih r hr

/-- In normal iteration mode every yielded row has a tick strictly
between 0 and the query tick (supports the two thirds of C2 that hold). -/
theorem iter_normal_tick_window (tick : Tick) (vec : List (List (Nat × ArchetypeData))) :
    ∀ r ∈ iter_normal tick vec, 0 < r.2.tick ∧ r.2.tick < tick := by
  rw [iter_normal]
  generalize vec.reverse = w
  induction w with
  | nil =>
    intro r hr
    cases hr
  | cons ar rest ih =>
    intro r hr
    rw [iter_normal_go] at hr
    rcases List.mem_append.mp hr with hmem | hmem
    · exact iter_normal_rows_tick_window tick ar r hmem
    · exact ih r hmem

theorem iter_record_keys_tick_window (tick : Tick) (get : Nat → ArchetypeData)
    (keys : List Nat) :
    ∀ r ∈ iter_record_keys tick get keys, 0 < r.2.tick ∧ r.2.tick < tick := by
  induction keys with
  | nil =>
    intro r hr
    cases hr
  | cons k rest ih =>
    intro r hr
    rw [iter_record_keys] at hr
    by_cases hn : (get k).isNull
    · rw [if_pos hn] at hr
      exact ih r hr
    · rw [if_neg hn] at hr
      by_cases h : 0 < (get k).tick ∧ (get k).tick < tick
      · rw [if_pos h] at hr
        rcases List.mem_cons.mp hr with heq | hmem
        · exact heq ▸ h
        · exact ih r hmem
      · rw [if_neg h] at hr
        exact ih r hr

/-- In single listener iteration mode every yielded row has a tick
strictly between 0 and the query tick (supports C2 for that mode). -/
theorem iter_record_tick_window (tick : Tick)
    (vec : List ((Nat → ArchetypeData) × List Nat)) :
    ∀ r ∈ iter_record tick vec, 0 < r.2.tick ∧ r.2.tick < tick := by
  rw [iter_record]
  generalize vec.reverse = w
  induction w with
  | nil =>
    intro r hr
    cases hr
  | cons ar rest ih =>
    intro r hr
    rw [iter_record_go] at hr
    rcases List.mem_append.mp hr with hmem | hmem
    · exact iter_record_keys_tick_window tick ar.1 ar.2 r hmem
    · exact ih r hmem

/-- C2 failing input: in multi listener mode (iter_records) the source
skips only rows whose tick t satisfies t = 0 AND t = tick, so at query
tick 9 it yields a logged row whose stored tick is 0 and a logged row
whose stored tick equals the query tick. -/
theorem iter_records_yields_tick_zero_and_current_tick :
    iter_records 9
        [(fun k => if k = 5 then { isNull := false, tick := 0, entity := 1 }
            else if k = 6 then { isNull := false, tick := 9, entity := 2 }
            else { isNull := true, tick := 0, entity := 0 }, [[5], [6]])]
      = [(5, { isNull := false, tick := 0, entity := 1 }),
         (6, { isNull := false, tick := 9, entity := 2 })] := rfl

/-! C3 support: basic facts about opLookup, colFind and the
specification lists. -/

theorem opLookup_cons (i j : Nat) (a : Bool) (ops : List (Nat × Bool)) :
    opLookup i ((j, a) :: ops) = if i = j then Option.some a else opLookup i ops := by
  by_cases h : i = j
  · simp [opLookup, List.lookup, h]
  · simp [opLookup, List.lookup, h, beq_eq_false_iff_ne.mpr h]

theorem opLookup_eq_none (i : Nat) (ops : List (Nat × Bool))
    (h : ∀ op ∈ ops, op.1 ≠ i) : opLookup i ops = Option.none := by
  induction ops with
  | nil => rfl
  | cons op rest ih =>
    obtain ⟨j, a⟩ := op
    rw [opLookup_cons, if_neg (fun he => h (j, a) (List.mem_cons_self _ _) he.symm)]
    exact ih (fun o ho => h o (List.mem_cons_of_mem _ ho))

theorem opLookup_mem_of_eq_some (i : Nat) (b : Bool) (ops : List (Nat × Bool))
    (h : opLookup i ops = Option.some b) : i ∈ ops.map Prod.fst := by
  induction ops with
  | nil => exact Option.noConfusion h
  | cons op rest ih =>
    obtain ⟨j, a⟩ := op
    rw [opLookup_cons] at h
    by_cases he : i = j
    · simp [he]
    · rw [if_neg he] at h
      simp [ih h]

theorem colFind_cons (c : Column) (cs : List Column) (i : Nat) :
    colFind (c :: cs) i = if c.info.index = i then Option.some c else colFind cs i := by
  by_cases h : c.info.index = i
  · simp [colFind, List.find?, h]
  · simp [colFind, List.find?, h, beq_eq_false_iff_ne.mpr h]

theorem colFind_eq_none (cs : List Column) (i : Nat)
    (h : ∀ c ∈ cs, c.info.index ≠ i) : colFind cs i = Option.none := by
  induction cs with
  | nil => rfl
  | cons c rest ih =>
    rw [colFind_cons, if_neg (h c (List.mem_cons_self _ _))]
    exact ih (fun d hd => h d (List.mem_cons_of_mem _ hd))

theorem addingSpec_skip_col (world : Nat → Column) (move : Bool) (c : Column)
    (cs : List Column) (ops : List (Nat × Bool))
    (h : ∀ op ∈ ops, op.1 ≠ c.info.index) :
    addingSpec world move (c :: cs) ops = addingSpec world move cs ops := by
  induction ops with
  | nil => rfl
  | cons op rest ih =>
    simp only [addingSpec, List.filterMap_cons]
    rw [colFind_cons, if_neg (show ¬c.info.index = op.1 from
      fun he => h op (List.mem_cons_self _ _) he.symm)]
    have ih2 := ih (fun o ho => h o (List.mem_cons_of_mem _ ho))
    simp only [addingSpec] at ih2
    rw [ih2]

theorem movingSpec_skip_op (move : Bool) (cols : List Column) (i : Nat) (a : Bool)
    (ops : List (Nat × Bool)) (h : ∀ c ∈ cols, c.info.index ≠ i) :
    movingSpec move cols ((i, a) :: ops) = movingSpec move cols ops := by
  unfold movingSpec
  apply List.filter_congr
  intro c hc
  rw [opLookup_cons, if_neg (h c hc)]

theorem removingSpec_skip_op (cols : List Column) (i : Nat) (a : Bool)
    (ops : List (Nat × Bool)) (h : ∀ c ∈ cols, c.info.index ≠ i) :
    removingSpec cols ((i, a) :: ops) = removingSpec cols ops := by
  unfold removingSpec
  apply List.filter_congr
  intro c hc
  rw [opLookup_cons, if_neg (h c hc)]

theorem movingSpec_cons (move : Bool) (c : Column) (cs : List Column)
    (ops : List (Nat × Bool)) :
    movingSpec move (c :: cs) ops
      = if (match opLookup c.info.index ops with
            | Option.none => true
            | Option.some b => b && move) = true
        then c :: movingSpec move cs ops else movingSpec move cs ops := by
  unfold movingSpec
  rw [List.filter_cons]

theorem removingSpec_cons (c : Column) (cs : List Column) (ops : List (Nat × Bool)) :
    removingSpec (c :: cs) ops
      = if (opLookup c.info.index ops == Option.some false) = true
        then c :: removingSpec cs ops else removingSpec cs ops := by
  unfold removingSpec
  rw [List.filter_cons]

theorem dedupOps_cons (pre : Option Nat) (op : Nat × Bool) (ops : List (Nat × Bool)) :
    dedupOps pre (op :: ops)
      = if pre = Option.some op.1 then dedupOps pre ops
        else op :: dedupOps (Option.some op.1) ops := rfl

theorem alter1Col_dedup (world : Nat → Column) (move : Bool) (ops : List (Nat × Bool))
    (H : ∀ (pre : Option Nat) (cols : List Column),
      alter1Go world move pre cols ops = alter1Go world move pre cols (dedupOps pre ops)) :
    ∀ (cols : List Column) (i : Nat) (add : Bool),
      alter1Col world move cols i add ops
        = alter1Col world move cols i add (dedupOps (Option.some i) ops) := by
  intro cols
  induction cols with
  | nil =>
    intro i add
    rw [alter1Col, alter1Col, H (Option.some i) []]
  | cons c cs ihc =>
    intro i add
    rw [alter1Col, alter1Col]
    by_cases h1 : i < c.info.index
    · rw [if_pos h1, if_pos h1, H (Option.some i) (c :: cs)]
    · rw [if_neg h1, if_neg h1]
      by_cases h2 : c.info.index < i
      · rw [if_pos h2, if_pos h2, ihc i add]
      · rw [if_neg h2, if_neg h2, H (Option.some i) cs]

/-- Duplicate skipping: the alter1 walk computes the same outputs on the
operation list and on its deduplication (one op per run of equal
component indices). -/
theorem alter1Go_dedup (world : Nat → Column) (move : Bool) :
    ∀ (ops : List (Nat × Bool)) (pre : Option Nat) (cols : List Column),
      alter1Go world move pre cols ops
        = alter1Go world move pre cols (dedupOps pre ops) := by
  intro ops
  induction ops with
  | nil =>
    intro pre cols
    rfl
  | cons op ops1 ih =>
    intro pre cols
    by_cases h : pre = Option.some op.1
    · calc alter1Go world move pre cols (op :: ops1)
          = alter1Go world move pre cols ops1 := by rw [alter1Go, if_pos h]
        _ = alter1Go world move pre cols (dedupOps pre ops1) := ih pre cols
        _ = alter1Go world move pre cols (dedupOps pre (op :: ops1)) := by
            rw [dedupOps_cons, if_pos h]
    · calc alter1Go world move pre cols (op :: ops1)
          = alter1Col world move cols op.1 op.2 ops1 := by rw [alter1Go, if_neg h]
        _ = alter1Col world move cols op.1 op.2 (dedupOps (Option.some op.1) ops1) :=
            alter1Col_dedup world move ops1 ih cols op.1 op.2
        _ = alter1Go world move pre cols (op :: dedupOps (Option.some op.1) ops1) := by
            rw [alter1Go, if_neg h]
        _ = alter1Go world move pre cols (dedupOps pre (op :: ops1)) := by
            rw [dedupOps_cons, if_neg h]

/-- Deduplicating a non-decreasing operation list yields strictly
ascending component indices (and the pre register is a strict lower
bound of the output). -/
theorem dedupOps_strict (ops : List (Nat × Bool)) :
    ∀ (pre : Option Nat),
      List.Pairwise (· ≤ ·) (ops.map Prod.fst) →
      (∀ p, pre = Option.some p → ∀ op ∈ ops, p ≤ op.1) →
      List.Pairwise (· < ·) ((dedupOps pre ops).map Prod.fst)
      ∧ (∀ p, pre = Option.some p → ∀ op ∈ dedupOps pre ops, p < op.1) := by
  induction ops with
  | nil =>
    intro pre _ _
    exact ⟨List.Pairwise.nil, fun p _ op hop => absurd hop (List.not_mem_nil op)⟩
  | cons op ops1 ih =>
    intro pre hs hlb
    rw [List.map_cons, List.pairwise_cons] at hs
    obtain ⟨hle, hs1⟩ := hs
    have hleops : ∀ o ∈ ops1, op.1 ≤ o.1 := fun o ho => hle _ (List.mem_map_of_mem _ ho)
    rw [dedupOps_cons]
    by_cases h : pre = Option.some op.1
    · rw [if_pos h]
      exact ih pre hs1 (fun p hp o ho => by
        rw [h] at hp
        injection hp with h2
        rw [← h2]
        exact hleops o ho)
    · rw [if_neg h]
      obtain ⟨ha, hb⟩ := ih (Option.some op.1) hs1 (fun p hp o ho => by
        injection hp with h2
        rw [← h2]
        exact hleops o ho)
      constructor
      · rw [List.map_cons, List.pairwise_cons]
        refine ⟨?_, ha⟩
        intro x hx
        rw [List.mem_map] at hx
        obtain ⟨o, ho, hox⟩ := hx
        rw [← hox]
        exact hb op.1 rfl o ho
      · intro p hp o ho
        rcases List.mem_cons.mp ho with heo | hom
        · have h1 := hlb p hp op (List.mem_cons_self _ _)
          have h2 : p ≠ op.1 := fun he => h (by rw [hp, he])
          rw [heo]
          omega
        · exact Nat.lt_of_le_of_lt (hlb p hp op (List.mem_cons_self _ _)) (hb op.1 rfl o hom)

/-- Inner column loop characterization: processing one operation (i, add)
against the remaining source columns realizes the claim description,
assuming the remaining operations sit strictly above i. -/
theorem alter1Col_spec_aux (world : Nat → Column) (move : Bool)
    (hw : ∀ n : Nat, (world n).info.index = n) (ops : List (Nat × Bool))
    (H : ∀ (pre : Option Nat) (cols : List Column),
      List.Pairwise (· < ·) (cols.map (fun c => c.info.index)) →
      List.Pairwise (· < ·) (ops.map Prod.fst) →
      (∀ op ∈ ops, pre ≠ Option.some op.1) →
      AlterSpec world move cols ops (alter1Go world move pre cols ops)) :
    ∀ (cols : List Column) (i : Nat) (add : Bool),
      List.Pairwise (· < ·) (cols.map (fun c => c.info.index)) →
      List.Pairwise (· < ·) (((i, add) :: ops).map Prod.fst) →
      AlterSpec world move cols ((i, add) :: ops) (alter1Col world move cols i add ops) := by
  intro cols
  induction cols with
  | nil =>
    intro i add _ ho
    rw [List.map_cons, List.pairwise_cons] at ho
    obtain ⟨hi0, hops⟩ := ho
    have hiops : ∀ op ∈ ops, i < op.1 := fun op hop => hi0 _ (List.mem_map_of_mem _ hop)
    have hpre : ∀ op ∈ ops, Option.some i ≠ Option.some op.1 := fun op hop hcontra =>
      absurd (Option.some.inj hcontra) (Nat.ne_of_lt (hiops op hop))
    obtain ⟨hA, hM, hR, hS, hI⟩ := H (Option.some i) [] List.Pairwise.nil hops hpre
    rw [alter1Col]
    cases add with
    | true =>
      refine ⟨?_, hM, hR, ?_, ?_⟩
      · show world i :: (alter1Go world move (Option.some i) [] ops).adding = _
        rw [hA]
        rfl
      · show List.Pairwise (· < ·)
          ((world i :: (alter1Go world move (Option.some i) [] ops).result).map
            (fun c => c.info.index))
        rw [List.map_cons, List.pairwise_cons]
        refine ⟨?_, hS⟩
        intro x hx
        rw [List.mem_map] at hx
        obtain ⟨d, hd, hdx⟩ := hx
        subst hdx
        rw [hw]
        have hmem := (hI d.info.index).mp ⟨d, hd, rfl⟩
        rcases hmem with ⟨⟨c0, hc0, _⟩, _⟩ | hlk
        · exact absurd hc0 (List.not_mem_nil c0)
        · exact hi0 _ (opLookup_mem_of_eq_some _ _ _ hlk)
      · intro i1
        by_cases hii : i1 = i
        · subst hii
          constructor
          · intro _
            right
            rw [opLookup_cons, if_pos rfl]
          · intro _
            exact ⟨world i1, List.mem_cons_self _ _, hw i1⟩
        · rw [opLookup_cons, if_neg hii]
          constructor
          · rintro ⟨d, hd, hdi⟩
            rcases List.mem_cons.mp hd with heq | hdmem
            · exact absurd (by rw [← hdi, heq, hw]) hii
            · exact (hI i1).mp ⟨d, hdmem, hdi⟩
          · intro h
            obtain ⟨d, hd, hdi⟩ := (hI i1).mpr h
            exact ⟨d, List.mem_cons_of_mem _ hd, hdi⟩
    | false =>
      refine ⟨hA, hM, hR, hS, ?_⟩
      intro i1
      by_cases hii : i1 = i
      · subst hii
        rw [opLookup_cons, if_pos rfl]
        constructor
        · rintro ⟨d, hd, hdi⟩
          have hmem := (hI i1).mp ⟨d, hd, hdi⟩
          rcases hmem with ⟨⟨c0, hc0, _⟩, _⟩ | hlk
          · exact absurd hc0 (List.not_mem_nil c0)
          · rw [opLookup_eq_none i1 ops (fun op hop => by have := hiops op hop; omega)] at hlk
            exact Option.noConfusion hlk
        · rintro (⟨_, hcontra⟩ | hcontra)
          · exact absurd rfl hcontra
          · exact Bool.noConfusion (Option.some.inj hcontra)
      · rw [opLookup_cons, if_neg hii]
        exact hI i1
  | cons c cs ih =>
    intro i add hc ho
    rw [List.map_cons, List.pairwise_cons] at ho
    obtain ⟨hi0, hops⟩ := ho
    have hiops : ∀ op ∈ ops, i < op.1 := fun op hop => hi0 _ (List.mem_map_of_mem _ hop)
    have hpre : ∀ op ∈ ops, Option.some i ≠ Option.some op.1 := fun op hop hcontra =>
      absurd (Option.some.inj hcontra) (Nat.ne_of_lt (hiops op hop))
    rw [List.map_cons, List.pairwise_cons] at hc
    obtain ⟨hcl, hcs⟩ := hc
    have hccs : ∀ d ∈ cs, c.info.index < d.info.index :=
      fun d hd => hcl _ (List.mem_map_of_mem _ hd)
    rw [alter1Col]
    rcases Nat.lt_trichotomy i c.info.index with hlt | heq | hgt
    · -- the op index sits below the head column: world column case
      rw [if_pos hlt]
      have hcols2 : List.Pairwise (· < ·) ((c :: cs).map (fun d => d.info.index)) := by
        rw [List.map_cons, List.pairwise_cons]
        exact ⟨hcl, hcs⟩
      obtain ⟨hA, hM, hR, hS, hI⟩ := H (Option.some i) (c :: cs) hcols2 hops hpre
      have hnotin : ∀ d ∈ c :: cs, d.info.index ≠ i := by
        intro d hd
        rcases List.mem_cons.mp hd with heq2 | hdm
        · rw [heq2]
          omega
        · have := hccs d hdm
          omega
      cases add with
      | true =>
        refine ⟨?_, ?_, ?_, ?_, ?_⟩
        · show world i :: (alter1Go world move (Option.some i) (c :: cs) ops).adding = _
          rw [hA]
          simp only [addingSpec, List.filterMap_cons]
          rw [colFind_eq_none (c :: cs) i hnotin]
          rfl
        · show (alter1Go world move (Option.some i) (c :: cs) ops).moving = _
          rw [hM, movingSpec_skip_op move (c :: cs) i true ops hnotin]
        · show (alter1Go world move (Option.some i) (c :: cs) ops).removing = _
          rw [hR, removingSpec_skip_op (c :: cs) i true ops hnotin]
        · show List.Pairwise (· < ·)
            ((world i :: (alter1Go world move (Option.some i) (c :: cs) ops).result).map
              (fun d => d.info.index))
          rw [List.map_cons, List.pairwise_cons]
          refine ⟨?_, hS⟩
          intro x hx
          rw [List.mem_map] at hx
          obtain ⟨d, hd, hdx⟩ := hx
          subst hdx
          rw [hw]
          have hmem := (hI d.info.index).mp ⟨d, hd, rfl⟩
          rcases hmem with ⟨⟨c0, hc0, hc0i⟩, _⟩ | hlk
          · rcases List.mem_cons.mp hc0 with heq2 | hc0m
            · rw [← hc0i, heq2]
              exact hlt
            · have h1 := hccs c0 hc0m
              omega
          · exact hi0 _ (opLookup_mem_of_eq_some _ _ _ hlk)
        · intro i1
          by_cases hii : i1 = i
          · subst hii
            constructor
            · intro _
              right
              rw [opLookup_cons, if_pos rfl]
            · intro _
              exact ⟨world i1, List.mem_cons_self _ _, hw i1⟩
          · rw [opLookup_cons, if_neg hii]
            constructor
            · rintro ⟨d, hd, hdi⟩
              rcases List.mem_cons.mp hd with heq2 | hdmem
              · exact absurd (by rw [← hdi, heq2, hw]) hii
              · exact (hI i1).mp ⟨d, hdmem, hdi⟩
            · intro h
              obtain ⟨d, hd, hdi⟩ := (hI i1).mpr h
              exact ⟨d, List.mem_cons_of_mem _ hd, hdi⟩
      | false =>
        refine ⟨hA, ?_, ?_, hS, ?_⟩
        · show (alter1Go world move (Option.some i) (c :: cs) ops).moving = _
          rw [hM, movingSpec_skip_op move (c :: cs) i false ops hnotin]
        · show (alter1Go world move (Option.some i) (c :: cs) ops).removing = _
          rw [hR, removingSpec_skip_op (c :: cs) i false ops hnotin]
        · intro i1
          by_cases hii : i1 = i
          · subst hii
            rw [opLookup_cons, if_pos rfl]
            constructor
            · rintro ⟨d, hd, hdi⟩
              have hmem := (hI i1).mp ⟨d, hd, hdi⟩
              rcases hmem with ⟨⟨c0, hc0, hc0i⟩, _⟩ | hlk
              · exact absurd hc0i (hnotin c0 hc0)
              · rw [opLookup_eq_none i1 ops (fun op hop => by have := hiops op hop; omega)] at hlk
                exact Option.noConfusion hlk
            · rintro (⟨_, hcontra⟩ | hcontra)
              · exact absurd rfl hcontra
              · exact Bool.noConfusion (Option.some.inj hcontra)
          · rw [opLookup_cons, if_neg hii]
            exact hI i1
    · -- the op index equals the head column index
      rw [if_neg (by omega), if_neg (by omega)]
      obtain ⟨hA, hM, hR, hS, hI⟩ := H (Option.some i) cs hcs hops hpre
      have hnotcs : ∀ d ∈ cs, d.info.index ≠ i := fun d hd => by
        have := hccs d hd
        omega
      have hsorted : List.Pairwise (· < ·)
          ((c :: (alter1Go world move (Option.some i) cs ops).result).map
            (fun d => d.info.index)) := by
        rw [List.map_cons, List.pairwise_cons]
        refine ⟨?_, hS⟩
        intro x hx
        rw [List.mem_map] at hx
        obtain ⟨d, hd, hdx⟩ := hx
        subst hdx
        have hmem := (hI d.info.index).mp ⟨d, hd, rfl⟩
        rcases hmem with ⟨⟨c0, hc0, hc0i⟩, _⟩ | hlk
        · have h1 := hccs c0 hc0
          omega
        · have h1 := hi0 _ (opLookup_mem_of_eq_some _ _ _ hlk)
          omega
      cases add with
      | true =>
        have hlk : opLookup c.info.index ((i, true) :: ops) = Option.some true := by
          rw [opLookup_cons, if_pos heq.symm]
        have hiff : ∀ i1 : Nat,
            (∃ d ∈ c :: (alter1Go world move (Option.some i) cs ops).result,
              d.info.index = i1)
            ↔ ((∃ c0 ∈ c :: cs, c0.info.index = i1)
                ∧ opLookup i1 ((i, true) :: ops) ≠ Option.some false)
              ∨ opLookup i1 ((i, true) :: ops) = Option.some true := by
          intro i1
          by_cases hii : i1 = i
          · subst hii
            constructor
            · intro _
              right
              rw [opLookup_cons, if_pos rfl]
            · intro _
              refine ⟨c, List.mem_cons_self _ _, heq.symm⟩
          · rw [opLookup_cons, if_neg hii]
            constructor
            · rintro ⟨d, hd, hdi⟩
              rcases List.mem_cons.mp hd with heq2 | hdmem
              · exact absurd (by rw [← hdi, heq2, ← heq]) hii
              · have hres := (hI i1).mp ⟨d, hdmem, hdi⟩
                rcases hres with ⟨⟨c0, hc0, hc0i⟩, hne2⟩ | hlk2
                · exact Or.inl ⟨⟨c0, List.mem_cons_of_mem _ hc0, hc0i⟩, hne2⟩
                · exact Or.inr hlk2
            · rintro (⟨⟨c0, hc0, hc0i⟩, hne2⟩ | hlk2)
              · rcases List.mem_cons.mp hc0 with heq2 | hc0m
                · exact absurd (by rw [← hc0i, heq2, ← heq]) hii
                · obtain ⟨d, hd, hdi⟩ := (hI i1).mpr (Or.inl ⟨⟨c0, hc0m, hc0i⟩, hne2⟩)
                  exact ⟨d, List.mem_cons_of_mem _ hd, hdi⟩
              · obtain ⟨d, hd, hdi⟩ := (hI i1).mpr (Or.inr hlk2)
                exact ⟨d, List.mem_cons_of_mem _ hd, hdi⟩
        cases move with
        | true =>
          refine ⟨?_, ?_, ?_, hsorted, hiff⟩
          · show (alter1Go world true (Option.some i) cs ops).adding = _
            rw [hA, ← addingSpec_skip_col world true c cs ops
              (fun op hop => by have := hiops op hop; omega)]
            simp only [addingSpec, List.filterMap_cons]
            rw [colFind_cons, if_pos heq.symm]
            rfl
          · show c :: (alter1Go world true (Option.some i) cs ops).moving = _
            rw [hM, movingSpec_cons, hlk, ← movingSpec_skip_op true cs i true ops hnotcs]
            rfl
          · show (alter1Go world true (Option.some i) cs ops).removing = _
            rw [hR, removingSpec_cons, hlk, ← removingSpec_skip_op cs i true ops hnotcs]
            rfl
        | false =>
          refine ⟨?_, ?_, ?_, hsorted, hiff⟩
          · show c :: (alter1Go world false (Option.some i) cs ops).adding = _
            rw [hA, ← addingSpec_skip_col world false c cs ops
              (fun op hop => by have := hiops op hop; omega)]
            simp only [addingSpec, List.filterMap_cons]
            rw [colFind_cons, if_pos heq.symm]
            rfl
          · show (alter1Go world false (Option.some i) cs ops).moving = _
            rw [hM, movingSpec_cons, hlk, ← movingSpec_skip_op false cs i true ops hnotcs]
            rfl
          · show (alter1Go world false (Option.some i) cs ops).removing = _
            rw [hR, removingSpec_cons, hlk, ← removingSpec_skip_op cs i true ops hnotcs]
            rfl
      | false =>
        have hlkf : opLookup c.info.index ((i, false) :: ops) = Option.some false := by
          rw [opLookup_cons, if_pos heq.symm]
        refine ⟨?_, ?_, ?_, hS, ?_⟩
        · show (alter1Go world move (Option.some i) cs ops).adding = _
          rw [hA, ← addingSpec_skip_col world move c cs ops
            (fun op hop => by have := hiops op hop; omega)]
          rfl
        · show (alter1Go world move (Option.some i) cs ops).moving = _
          rw [hM, movingSpec_cons, hlkf, ← movingSpec_skip_op move cs i false ops hnotcs]
          cases move <;> rfl
        · show c :: (alter1Go world move (Option.some i) cs ops).removing = _
          rw [hR, removingSpec_cons, hlkf, ← removingSpec_skip_op cs i false ops hnotcs]
          rfl
        · intro i1
          by_cases hii : i1 = i
          · subst hii
            rw [opLookup_cons, if_pos rfl]
            constructor
            · rintro ⟨d, hd, hdi⟩
              have hmem := (hI i1).mp ⟨d, hd, hdi⟩
              rcases hmem with ⟨⟨c0, hc0, hc0i⟩, _⟩ | hlk2
              · exact absurd hc0i (hnotcs c0 hc0)
              · rw [opLookup_eq_none i1 ops (fun op hop => by have := hiops op hop; omega)] at hlk2
                exact Option.noConfusion hlk2
            · rintro (⟨_, hcontra⟩ | hcontra)
              · exact absurd rfl hcontra
              · exact Bool.noConfusion (Option.some.inj hcontra)
          · rw [opLookup_cons, if_neg hii]
            constructor
            · rintro ⟨d, hd, hdi⟩
              have hres := (hI i1).mp ⟨d, hd, hdi⟩
              rcases hres with ⟨⟨c0, hc0, hc0i⟩, hne2⟩ | hlk2
              · exact Or.inl ⟨⟨c0, List.mem_cons_of_mem _ hc0, hc0i⟩, hne2⟩
              · exact Or.inr hlk2
            · rintro (⟨⟨c0, hc0, hc0i⟩, hne2⟩ | hlk2)
              · rcases List.mem_cons.mp hc0 with heq2 | hc0m
                · exact absurd (by rw [← hc0i, heq2, ← heq]) hii
                · exact (hI i1).mpr (Or.inl ⟨⟨c0, hc0m, hc0i⟩, hne2⟩)
              · exact (hI i1).mpr (Or.inr hlk2)
    · -- the head column index sits below the op index: the column moves
      rw [if_neg (by omega), if_pos hgt]
      have hho : List.Pairwise (· < ·) (((i, add) :: ops).map Prod.fst) := by
        rw [List.map_cons, List.pairwise_cons]
        exact ⟨hi0, hops⟩
      obtain ⟨hA, hM, hR, hS, hI⟩ := ih i add hcs hho
      have hEnotc : ∀ op ∈ (i, add) :: ops, op.1 ≠ c.info.index := by
        intro op hop
        rcases List.mem_cons.mp hop with heq2 | hm
        · rw [heq2]
          show i ≠ c.info.index
          omega
        · have := hiops op hm
          omega
      have hlkn : opLookup c.info.index ((i, add) :: ops) = Option.none :=
        opLookup_eq_none _ _ hEnotc
      refine ⟨?_, ?_, ?_, ?_, ?_⟩
      · show (alter1Col world move cs i add ops).adding = _
        rw [hA, ← addingSpec_skip_col world move c cs ((i, add) :: ops) hEnotc]
      · show c :: (alter1Col world move cs i add ops).moving = _
        rw [hM, movingSpec_cons, hlkn]
        rfl
      · show (alter1Col world move cs i add ops).removing = _
        rw [hR, removingSpec_cons, hlkn]
        rfl
      · show List.Pairwise (· < ·)
          ((c :: (alter1Col world move cs i add ops).result).map (fun d => d.info.index))
        rw [List.map_cons, List.pairwise_cons]
        refine ⟨?_, hS⟩
        intro x hx
        rw [List.mem_map] at hx
        obtain ⟨d, hd, hdx⟩ := hx
        subst hdx
        have hmem := (hI d.info.index).mp ⟨d, hd, rfl⟩
        rcases hmem with ⟨⟨c0, hc0, hc0i⟩, _⟩ | hlk2
        · have h1 := hccs c0 hc0
          omega
        · have hm2 := opLookup_mem_of_eq_some _ _ _ hlk2
          rw [List.map_cons] at hm2
          rcases List.mem_cons.mp hm2 with h2 | h2
          · have h3 : d.info.index = i := h2
            omega
          · have h3 := hi0 _ h2
            omega
      · intro i1
        by_cases hic : i1 = c.info.index
        · constructor
          · intro _
            left
            refine ⟨⟨c, List.mem_cons_self _ _, hic.symm⟩, ?_⟩
            rw [hic, hlkn]
            exact fun hcontra => Option.noConfusion hcontra
          · intro _
            exact ⟨c, List.mem_cons_self _ _, hic.symm⟩
        · constructor
          · rintro ⟨d, hd, hdi⟩
            rcases List.mem_cons.mp hd with heq2 | hdmem
            · exact absurd (by rw [← hdi, heq2]) hic
            · have hres := (hI i1).mp ⟨d, hdmem, hdi⟩
              rcases hres with ⟨⟨c0, hc0, hc0i⟩, hne2⟩ | hlk2
              · exact Or.inl ⟨⟨c0, List.mem_cons_of_mem _ hc0, hc0i⟩, hne2⟩
              · exact Or.inr hlk2
          · rintro (⟨⟨c0, hc0, hc0i⟩, hne2⟩ | hlk2)
            · rcases List.mem_cons.mp hc0 with heq2 | hc0m
              · exact absurd (by rw [← hc0i, heq2]) hic
              · obtain ⟨d, hd, hdi⟩ := (hI i1).mpr (Or.inl ⟨⟨c0, hc0m, hc0i⟩, hne2⟩)
                exact ⟨d, List.mem_cons_of_mem _ hd, hdi⟩
            · obtain ⟨d, hd, hdi⟩ := (hI i1).mpr (Or.inr hlk2)
              exact ⟨d, List.mem_cons_of_mem _ hd, hdi⟩

/-- Characterization of the alter1 walk on an operation list with
strictly ascending component indices. -/
theorem alter1Go_spec (world : Nat → Column) (move : Bool)
    (hw : ∀ n : Nat, (world n).info.index = n) :
    ∀ (ops : List (Nat × Bool)) (pre : Option Nat) (cols : List Column),
      List.Pairwise (· < ·) (cols.map (fun c => c.info.index)) →
      List.Pairwise (· < ·) (ops.map Prod.fst) →
      (∀ op ∈ ops, pre ≠ Option.some op.1) →
      AlterSpec world move cols ops (alter1Go world move pre cols ops) := by
  intro ops
  induction ops with
  | nil =>
    intro pre cols hc _ _
    rw [alter1Go]
    refine ⟨rfl, ?_, ?_, hc, ?_⟩
    · show cols = movingSpec move cols []
      exact (List.filter_eq_self.mpr (fun a _ => rfl)).symm
    · show ([] : List Column) = removingSpec cols []
      exact (List.filter_eq_nil_iff.mpr (fun a _ => by simp [opLookup, List.lookup])).symm
    · intro i1
      simp [opLookup, List.lookup]
  | cons op ops1 ih =>
    intro pre cols hc ho hpre
    obtain ⟨i, add⟩ := op
    rw [alter1Go, if_neg (hpre (i, add) (List.mem_cons_self _ _))]
    exact alter1Col_spec_aux world move hw ops1 ih cols i add hc ho

/-- C3: Archetype::alter1 skips consecutive duplicate operations (its
outputs agree with the run on the deduplicated operation list), and on
the effective operations it partitions columns as the claim states: the
adding, moving and removing lists match their descriptions (an added
component absent from the source becomes the registered world column in
adding; an added component present in the source goes to moving exactly
when existed adding is move and to adding otherwise; a removed component
present in the source goes to removing), the destination column list is
strictly ascending by component index, and its index set is exactly
(source minus effective removes) union effective adds.  The returned
ArchetypeInfo is built from that destination list. -/
theorem alter1_partition (a : Archetype) (world : Nat → Column)
    (ops : List (Nat × Bool)) (move : Bool)
    (hw : ∀ n : Nat, (world n).info.index = n)
    (hc : List.Pairwise (· < ·) (a.table.sorted_columns.map (fun c => c.info.index)))
    (ho : List.Pairwise (· ≤ ·) (ops.map Prod.fst)) :
    (a.alter1 world ops move).1
        = alter1Go world move Option.none a.table.sorted_columns (dedupOps Option.none ops)
    ∧ AlterSpec world move a.table.sorted_columns (dedupOps Option.none ops)
        (a.alter1 world ops move).1
    ∧ (a.alter1 world ops move).2.sorted_components = (a.alter1 world ops move).1.result := by
  have hstrict := (dedupOps_strict ops Option.none ho (fun p hp => Option.noConfusion hp)).1
  have hdd := alter1Go_dedup world move ops Option.none a.table.sorted_columns
  have hpre : ∀ op ∈ dedupOps Option.none ops, (Option.none : Option Nat) ≠ Option.some op.1 :=
    fun op _ hcontra => Option.noConfusion hcontra
  have hspec := alter1Go_spec world move hw (dedupOps Option.none ops) Option.none
    a.table.sorted_columns hc hstrict hpre
  refine ⟨hdd, ?_, rfl⟩
  show AlterSpec world move a.table.sorted_columns (dedupOps Option.none ops)
    (alter1Go world move Option.none a.table.sorted_columns ops)
  rw [hdd]
  exact hspec

/-- C3 witness: source components 1 and 3, operations add 2, add 2
(duplicate), remove 3, with existed adding is move on. -/
theorem alter1_partition_witness :
    AlterSpec worldFix true arFix.table.sorted_columns
        (dedupOps Option.none [(2, true), (2, true), (3, false)])
        (arFix.alter1 worldFix [(2, true), (2, true), (3, false)] true).1 :=
  (alter1_partition arFix worldFix [(2, true), (2, true), (3, false)] true
    (fun n => rfl) (by decide) (by decide)).2.1

/-! C1 support: reading sorted lists positionally, and counting elements
at or above a bound. -/

theorem getD_eq_getElem_of_lt (l : List Nat) (n : Nat) (h : n < l.length) :
    l.getD n 0 = l[n] := by
  rw [List.getD_eq_getElem?_getD, List.getElem?_eq_getElem h]
  rfl

theorem getD_mem_take (rs : List Nat) (j e : Nat) (hj : j < e) (he : e ≤ rs.length) :
    rs.getD j 0 ∈ rs.take e := by
  have hjl : j < rs.length := by omega
  rw [getD_eq_getElem_of_lt rs j hjl, List.mem_iff_getElem]
  refine ⟨j, ?_, ?_⟩
  · rw [List.length_take]
    omega
  · exact List.getElem_take rs

theorem mem_take_lt_getD (rs : List Nat) (hs : List.Pairwise (· < ·) rs) (k : Nat)
    (hk : k < rs.length) : ∀ x ∈ rs.take k, x < rs.getD k 0 := by
  intro x hx
  rw [List.mem_iff_getElem] at hx
  obtain ⟨j, hj, hx⟩ := hx
  rw [List.length_take] at hj
  have hjk : j < k := lt_of_lt_of_le hj (min_le_left _ _)
  have hjl : j < rs.length := lt_of_lt_of_le hj (min_le_right _ _)
  rw [getD_eq_getElem_of_lt rs k hk, ← hx, List.getElem_take]
  exact List.pairwise_iff_getElem.mp hs j k hjl hk hjk

theorem mem_take_le_getD (rs : List Nat) (hs : List.Pairwise (· < ·) rs) (k : Nat)
    (hk : k < rs.length) : ∀ x ∈ rs.take (k + 1), x ≤ rs.getD k 0 := by
  intro x hx
  rw [List.take_succ] at hx
  rcases List.mem_append.mp hx with hmem | hmem
  · exact Nat.le_of_lt (mem_take_lt_getD rs hs k hk x hmem)
  · rw [List.getElem?_eq_getElem hk] at hmem
    simp only [Option.toList_some, List.mem_singleton] at hmem
    rw [hmem, getD_eq_getElem_of_lt rs k hk]

theorem mem_drop_ge_getD (rs : List Nat) (hs : List.Pairwise (· < ·) rs) (k : Nat)
    (hk : k < rs.length) : ∀ x ∈ rs.drop k, rs.getD k 0 ≤ x := by
  intro x hx
  rw [List.mem_iff_getElem] at hx
  obtain ⟨j, hj, hx⟩ := hx
  have hj2 : j < rs.length - k := by
    rw [← List.length_drop]
    exact hj
  have hkj : k + j < rs.length := by omega
  have hdj : (rs.drop k)[j] = rs[k + j] := by
    have h0 := List.getElem?_drop rs k j
    rw [List.getElem?_eq_getElem hj, List.getElem?_eq_getElem hkj] at h0
    exact Option.some.inj h0
  rw [← hx, hdj, getD_eq_getElem_of_lt rs k hk]
  by_cases hj0 : j = 0
  · subst hj0
    exact Nat.le_refl _
  · exact Nat.le_of_lt (List.pairwise_iff_getElem.mp hs k (k + j) hk hkj (by omega))

theorem filter_lt_eq_take (rs : List Nat) (k b : Nat)
    (h1 : ∀ x ∈ rs.take k, x < b) (h2 : ∀ x ∈ rs.drop k, b ≤ x) :
    rs.filter (fun r => decide (r < b)) = rs.take k := by
  conv_lhs => rw [← List.take_append_drop k rs]
  rw [List.filter_append,
    List.filter_eq_self.mpr (fun a ha => decide_eq_true (h1 a ha)),
    List.filter_eq_nil_iff.mpr
      (fun a ha hdec => absurd (of_decide_eq_true hdec) (Nat.not_lt.mpr (h2 a ha))),
    List.append_nil]

theorem countGe_split (rs : List Nat) (k b : Nat)
    (h1 : ∀ x ∈ rs.take k, x < b) (h2 : ∀ x ∈ rs.drop k, b ≤ x) (hk : k ≤ rs.length) :
    (rs.filter (fun x => decide (b ≤ x))).length = rs.length - k := by
  conv_lhs => rw [← List.take_append_drop k rs]
  rw [List.filter_append,
    List.filter_eq_nil_iff.mpr
      (fun a ha hdec => absurd (of_decide_eq_true hdec) (Nat.not_le.mpr (h1 a ha))),
    List.filter_eq_self.mpr (fun a ha => decide_eq_true (h2 a ha)),
    List.nil_append, List.length_drop]

theorem countGe_succ_not_mem (rs : List Nat) (e : Nat) (he : e ∉ rs) :
    rs.filter (fun x => decide (e ≤ x)) = rs.filter (fun x => decide (e + 1 ≤ x)) := by
  apply List.filter_congr
  intro x hx
  have hxe : x ≠ e := fun hc => he (hc ▸ hx)
  by_cases h : e + 1 ≤ x
  · rw [decide_eq_true (show e ≤ x by omega), decide_eq_true h]
  · rw [decide_eq_false (show ¬e ≤ x by omega), decide_eq_false h]

theorem countGe_succ_mem (rs : List Nat) (e : Nat) (hnd : rs.Nodup) (he : e ∈ rs) :
    (rs.filter (fun x => decide (e ≤ x))).length
      = (rs.filter (fun x => decide (e + 1 ≤ x))).length + 1 := by
  induction rs with
  | nil => cases he
  | cons a rest ih =>
    rw [List.nodup_cons] at hnd
    obtain ⟨hna, hrest⟩ := hnd
    rw [List.filter_cons, List.filter_cons]
    rcases List.mem_cons.mp he with heq | hmem
    · rw [if_pos (decide_eq_true (show e ≤ a by omega)),
        if_neg (show ¬decide (e + 1 ≤ a) = true by
          rw [decide_eq_false (show ¬e + 1 ≤ a by omega)]
          exact Bool.false_ne_true)]
      rw [countGe_succ_not_mem rest e (fun hc => hna (heq ▸ hc))]
      simp
    · have ihe := ih hrest hmem
      by_cases hle : e + 1 ≤ a
      · rw [if_pos (decide_eq_true (show e ≤ a by omega)), if_pos (decide_eq_true hle)]
        simp only [List.length_cons]
        omega
      · by_cases hle2 : e ≤ a
        · have hae : a = e := by omega
          exact absurd (hae ▸ hmem) hna
        · rw [if_neg (show ¬decide (e ≤ a) = true by simpa using hle2),
            if_neg (show ¬decide (e + 1 ≤ a) = true by simpa using hle)]
          exact ihe

theorem countGe_interval (rs : List Nat) (hnd : rs.Nodup) :
    ∀ (d e1 : Nat),
      (rs.filter (fun x => decide (e1 ≤ x))).length
        = (rs.filter (fun x => decide (e1 + d ≤ x))).length
          + ((List.range' e1 d).filter (fun s => decide (s ∈ rs))).length := by
  intro d
  induction d with
  | zero =>
    intro e1
    simp
  | succ n ih =>
    intro e1
    rw [List.range'_succ, List.filter_cons]
    by_cases hm : e1 ∈ rs
    · rw [if_pos (decide_eq_true hm), countGe_succ_mem rs e1 hnd hm, ih (e1 + 1)]
      simp only [List.length_cons]
      rw [show e1 + 1 + n = e1 + (n + 1) from by omega]
      omega
    · rw [if_neg (show ¬decide (e1 ∈ rs) = true by simpa using hm),
        countGe_succ_not_mem rs e1 hm, ih (e1 + 1),
        show e1 + 1 + n = e1 + (n + 1) from by omega]

theorem countGe_all_in (rs : List Nat) (hnd : rs.Nodup) (e1 e2 : Nat) (hle : e1 ≤ e2)
    (hall : ∀ s, e1 ≤ s → s < e2 → s ∈ rs) :
    (rs.filter (fun x => decide (e1 ≤ x))).length
      = (rs.filter (fun x => decide (e2 ≤ x))).length + (e2 - e1) := by
  have h0 := countGe_interval rs hnd (e2 - e1) e1
  rw [show e1 + (e2 - e1) = e2 from by omega] at h0
  rw [h0]
  congr 1
  rw [List.filter_eq_self.mpr (fun s hs => by
    have hm := List.mem_range'_1.mp hs
    exact decide_eq_true (hall s hm.1 (by omega)))]
  rw [List.length_range']

theorem countGe_all_in_except (rs : List Nat) (hnd : rs.Nodup) (e1 e2 : Nat)
    (hlt : e1 < e2) (hnot : e1 ∉ rs) (hall : ∀ s, e1 < s → s < e2 → s ∈ rs) :
    (rs.filter (fun x => decide (e1 ≤ x))).length
      = (rs.filter (fun x => decide (e2 ≤ x))).length + (e2 - e1 - 1) := by
  rw [countGe_succ_not_mem rs e1 hnot]
  have h0 := countGe_all_in rs hnd (e1 + 1) e2 (by omega)
    (fun s hs1 hs2 => hall s (by omega) hs2)
  rw [h0]
  omega

/-- Reading the working array of the sparse path: a prefix P of already
emitted pairs followed by the untouched (r, r) pairs of the sorted
removed rows. -/
theorem arr_getD (rs : List Nat) (P : List (Row × Row)) (start j : Nat)
    (hPlen : P.length = start) (hj1 : start ≤ j) (hj2 : j < rs.length) :
    (P ++ (rs.drop start).map (fun r => (r, r))).getD j (0, 0)
      = (rs.getD j 0, rs.getD j 0) := by
  rw [List.getD_eq_getElem?_getD,
    List.getElem?_append_right (show P.length ≤ j from by omega), hPlen,
    List.getElem?_map, List.getElem?_drop,
    show start + (j - start) = j from by omega,
    List.getElem?_eq_getElem hj2, getD_eq_getElem_of_lt rs j hj2]
  rfl

/-- Invariant preservation of the sparse compaction loop: starting from a
consistent prefix of emitted pairs, sparseLoop returns the final hole
count L - rs.length together with pairs whose destinations are exactly the
removed rows below that bound (in order) and whose sources are distinct
live rows at or above it. -/
theorem sparseLoop_spec (rs : List Nat) (L : Nat)
    (hsort : List.Pairwise (· < ·) rs) :
    ∀ (n start e index : Nat) (P : List (Row × Row)),
      e - start = n →
      P.length = start → start ≤ e → e ≤ rs.length →
      index + start + rs.length = L + e →
      (∀ x ∈ rs.take e, x < index) →
      (∀ x ∈ rs.drop e, index ≤ x) →
      P.map Prod.snd = rs.take start →
      List.Pairwise (· > ·) (P.map Prod.fst) →
      (∀ p ∈ P, index ≤ p.1) →
      (∀ p ∈ P, p.1 ∉ rs) →
      (∀ p ∈ P, p.1 < L) →
      ∃ Pf : List (Row × Row),
        sparseLoop start e index (P ++ (rs.drop start).map (fun r => (r, r)))
            = (L - rs.length, Pf)
          ∧ Pf.map Prod.snd = rs.filter (fun r => decide (r < L - rs.length))
          ∧ List.Pairwise (· > ·) (Pf.map Prod.fst)
          ∧ ∀ p ∈ Pf, p.1 ∉ rs ∧ L - rs.length ≤ p.1 ∧ p.1 < L := by
  intro n
  induction n with
  | zero =>
    intro start e index P hn hPlen hse heR hinv htake hdrop hPsnd hPsrc hPge hPnotin hPlt
    have hes : start = e := by omega
    subst hes
    have hidx : index = L - rs.length := by omega
    refine ⟨P, ?_, ?_, hPsrc, ?_⟩
    · rw [sparseLoop, dif_neg (show ¬start < start from by omega)]
      rw [hidx, show start = P.length from hPlen.symm, List.take_left]
    · rw [hPsnd]
      exact (filter_lt_eq_take rs start (L - rs.length)
        (fun x hx => hidx ▸ htake x hx)
        (fun x hx => hidx ▸ hdrop x hx)).symm
    · intro p hp
      exact ⟨hPnotin p hp, hidx ▸ hPge p hp, hPlt p hp⟩
  | succ m ih =>
    intro start e index P hn hPlen hse heR hinv htake hdrop hPsnd hPsrc hPge hPnotin hPlt
    have hlt : start < e := by omega
    have he1lt : e - 1 < rs.length := by omega
    have hselt : start < rs.length := by omega
    have hgmem : rs.getD (e - 1) 0 ∈ rs.take e :=
      getD_mem_take rs (e - 1) e (by omega) heR
    have hidxpos : 0 < index := by
      have h0 := htake (rs.getD (e - 1) 0) hgmem
      omega
    have harrE := arr_getD rs P start (e - 1) hPlen (by omega) he1lt
    rw [sparseLoop, dif_pos hlt]
    simp only [harrE]
    by_cases hcond : rs.getD (e - 1) 0 = index - 1
    · rw [if_pos hcond]
      refine ih start (e - 1) (index - 1) P (by omega) hPlen (by omega) (by omega)
        (by omega) ?_ ?_ hPsnd hPsrc ?_ hPnotin hPlt
      · intro x hx
        have h0 := mem_take_lt_getD rs hsort (e - 1) he1lt x hx
        omega
      · intro x hx
        have h0 := mem_drop_ge_getD rs hsort (e - 1) he1lt x hx
        omega
      · intro p hp
        have h0 := hPge p hp
        omega
    · rw [if_neg hcond]
      have harrS := arr_getD rs P start start hPlen (Nat.le_refl start) hselt
      simp only [harrS]
      have htakeE : ∀ x ∈ rs.take e, x < index - 1 := by
        intro x hx
        have h1 : x ≤ rs.getD (e - 1) 0 := by
          have h0 := mem_take_le_getD rs hsort (e - 1) he1lt
          rw [show e - 1 + 1 = e from by omega] at h0
          exact h0 x hx
        have h2 := htake (rs.getD (e - 1) 0) hgmem
        omega
      have hnew_notin : index - 1 ∉ rs := by
        intro hmem
        rw [← List.take_append_drop e rs] at hmem
        rcases List.mem_append.mp hmem with h0 | h0
        · have := htakeE _ h0
          omega
        · have := hdrop _ h0
          omega
      have hset : (P ++ (rs.drop start).map (fun r => (r, r))).set start
            (index - 1, rs.getD start 0)
          = (P ++ [(index - 1, rs.getD start 0)])
              ++ (rs.drop (start + 1)).map (fun r => (r, r)) := by
        rw [List.set_append, if_neg (show ¬start < P.length from by omega), hPlen,
          show start - start = 0 from by omega,
          List.drop_eq_getElem_cons hselt, List.map_cons, List.set_cons_zero,
          getD_eq_getElem_of_lt rs start hselt, List.append_cons]
      rw [hset]
      refine ih (start + 1) e (index - 1)
        (P ++ [(index - 1, rs.getD start 0)]) (by omega) ?_ (by omega) heR
        (by omega) htakeE ?_ ?_ ?_ ?_ ?_ ?_
      · rw [List.length_append, hPlen]
        rfl
      · intro x hx
        have h0 := hdrop x hx
        omega
      · rw [List.map_append, hPsnd, List.take_succ,
          List.getElem?_eq_getElem hselt, getD_eq_getElem_of_lt rs start hselt]
        rfl
      · rw [List.map_append, List.pairwise_append]
        refine ⟨hPsrc, List.pairwise_singleton _ _, ?_⟩
        intro a ha b hb
        rw [List.mem_map] at ha
        obtain ⟨p, hp, hpa⟩ := ha
        simp only [List.map_cons, List.map_nil, List.mem_singleton] at hb
        have h0 := hPge p hp
        rw [hpa] at h0
        rw [hb]
        exact Nat.lt_of_lt_of_le (Nat.sub_lt hidxpos Nat.one_pos) h0
      · intro p hp
        rcases List.mem_append.mp hp with h0 | h0
        · have := hPge p h0
          omega
        · rw [List.mem_singleton] at h0
          rw [h0]
      · intro p hp
        rcases List.mem_append.mp hp with h0 | h0
        · exact hPnotin p h0
        · rw [List.mem_singleton] at h0
          rw [h0]
          exact hnew_notin
      · intro p hp
        rcases List.mem_append.mp hp with h0 | h0
        · exact hPlt p h0
        · rw [List.mem_singleton] at h0
          rw [h0]
          show index - 1 < L
          omega

/-- When the downward scan of the dense path returns without emitting a
pair: either the tail was already exhausted (e at or below the removed
row), or every slot from the removed row up to e is itself removed. -/
theorem denseInner_inl_spec (mem : Nat → Bool) (row : Nat) :
    ∀ (e ef : Nat), denseInner mem row e = Sum.inl ef →
      (e ≤ row ∧ ef = e)
        ∨ (row < e ∧ ef = row ∧ ∀ s, row ≤ s → s < e → mem s = true) := by
  intro e
  induction e using Nat.strong_induction_on with
  | _ e ih =>
    intro ef h
    rw [denseInner] at h
    by_cases hre : e ≤ row
    · rw [dif_pos hre] at h
      exact Or.inl ⟨hre, (Sum.inl.inj h).symm⟩
    · rw [dif_neg hre] at h
      by_cases hm : mem (e - 1) = true
      · rw [if_pos hm] at h
        rcases ih (e - 1) (by omega) ef h with ⟨h1, h2⟩ | ⟨h1, h2, h3⟩
        · right
          refine ⟨by omega, by omega, ?_⟩
          intro s hs1 hs2
          rw [show s = e - 1 from by omega]
          exact hm
        · right
          refine ⟨by omega, h2, ?_⟩
          intro s hs1 hs2
          by_cases hse : s = e - 1
          · rw [hse]
            exact hm
          · exact h3 s hs1 (by omega)
      · rw [if_neg hm] at h
        exact Sum.noConfusion h

/-- When the downward scan of the dense path emits a pair with source e1:
e1 is a live slot below e, at or above the removed row, and every slot
strictly between e1 and e is removed. -/
theorem denseInner_inr_spec (mem : Nat → Bool) (row : Nat) :
    ∀ (e e1 : Nat), denseInner mem row e = Sum.inr e1 →
      e1 < e ∧ row ≤ e1 ∧ mem e1 = false ∧ ∀ s, e1 < s → s < e → mem s = true := by
  intro e
  induction e using Nat.strong_induction_on with
  | _ e ih =>
    intro e1 h
    rw [denseInner] at h
    by_cases hre : e ≤ row
    · rw [dif_pos hre] at h
      exact Sum.noConfusion h
    · rw [dif_neg hre] at h
      by_cases hm : mem (e - 1) = true
      · rw [if_pos hm] at h
        obtain ⟨h1, h2, h3, h4⟩ := ih (e - 1) (by omega) e1 h
        refine ⟨by omega, h2, h3, ?_⟩
        intro s hs1 hs2
        by_cases hse : s = e - 1
        · rw [hse]
          exact hm
        · exact h4 s hs1 (by omega)
      · rw [if_neg hm] at h
        have he1 : e1 = e - 1 := (Sum.inr.inj h).symm
        refine ⟨by omega, by omega, ?_, ?_⟩
        · rw [he1]
          rcases Bool.eq_false_or_eq_true (mem (e - 1)) with ht | hf
          · exact absurd ht hm
          · exact hf
        · intro s hs1 hs2
          exact absurd hs2 (by omega)

/-- Invariant preservation of the dense compaction loop over the sorted
removed rows rs: starting from element k with e live-tail bound satisfying
the counting invariant, denseGo ends at the hole bound L - rs.length and
its accumulated pairs cover exactly the removed rows below that bound,
with distinct live sources at or above it. -/
theorem denseGo_spec (rs : List Nat) (L : Nat)
    (hsort : List.Pairwise (· < ·) rs) (hnd : rs.Nodup) :
    ∀ (n k e : Nat) (acc : List (Row × Row)),
      rs.length - k = n →
      k ≤ rs.length →
      e + k + (rs.filter (fun x => decide (e ≤ x))).length = L →
      (∀ x ∈ rs.take k, x < e) →
      acc.map Prod.snd = rs.take k →
      List.Pairwise (· > ·) (acc.map Prod.fst) →
      (∀ p ∈ acc, e ≤ p.1 ∧ p.1 < L ∧ p.1 ∉ rs) →
      ∃ ef accf,
        denseGo (fun i => decide (i ∈ rs)) (rs.drop k) e acc = (ef, accf)
          ∧ ef = L - rs.length
          ∧ accf.map Prod.snd = rs.filter (fun r => decide (r < ef))
          ∧ List.Pairwise (· > ·) (accf.map Prod.fst)
          ∧ ∀ p ∈ accf, p.1 ∉ rs ∧ ef ≤ p.1 ∧ p.1 < L := by
  intro n
  induction n with
  | zero =>
    intro k e acc hn hk hcnt htake haccsnd haccsrc hacc
    have hkR : k = rs.length := by omega
    subst hkR
    rw [List.drop_length]
    have hall : ∀ x ∈ rs, x < e := fun x hx =>
      htake x (by rw [List.take_length]; exact hx)
    have hcnt0 : rs.filter (fun x => decide (e ≤ x)) = [] :=
      List.filter_eq_nil_iff.mpr
        (fun a ha hdec => absurd (of_decide_eq_true hdec) (Nat.not_le.mpr (hall a ha)))
    rw [hcnt0] at hcnt
    simp only [List.length_nil] at hcnt
    have hef : e = L - rs.length := by omega
    refine ⟨e, acc, rfl, hef, ?_, haccsrc, ?_⟩
    · rw [haccsnd, List.take_length]
      exact (List.filter_eq_self.mpr (fun a ha => decide_eq_true (hall a ha))).symm
    · intro p hp
      obtain ⟨h1, h2, h3⟩ := hacc p hp
      exact ⟨h3, h1, h2⟩
  | succ m ih =>
    intro k e acc hn hk hcnt htake haccsnd haccsrc hacc
    have hklt : k < rs.length := by omega
    have hdropk : rs.drop k = rs.getD k 0 :: rs.drop (k + 1) := by
      rw [List.drop_eq_getElem_cons hklt, getD_eq_getElem_of_lt rs k hklt]
    rw [hdropk, denseGo]
    have htklt : ∀ x ∈ rs.take k, x < rs.getD k 0 := mem_take_lt_getD rs hsort k hklt
    have hdgek : ∀ x ∈ rs.drop k, rs.getD k 0 ≤ x := mem_drop_ge_getD rs hsort k hklt
    cases hDI : denseInner (fun i => decide (i ∈ rs)) (rs.getD k 0) e with
    | inl ef0 =>
      rcases denseInner_inl_spec _ _ e ef0 hDI with ⟨h1, h2⟩ | ⟨h1, h2, h3⟩
      · have hdropge : ∀ x ∈ rs.drop k, e ≤ x := by
          intro x hx
          have h0 := hdgek x hx
          omega
        have hcntval := countGe_split rs k e htake hdropge (by omega)
        rw [hcntval] at hcnt
        have hef : ef0 = L - rs.length := by omega
        refine ⟨ef0, acc, rfl, hef, ?_, haccsrc, ?_⟩
        · rw [haccsnd, h2]
          exact (filter_lt_eq_take rs k e htake hdropge).symm
        · intro p hp
          obtain ⟨ha1, ha2, ha3⟩ := hacc p hp
          refine ⟨ha3, ?_, ha2⟩
          rw [h2]
          exact ha1
      · have hrowmem_all : ∀ s, rs.getD k 0 ≤ s → s < e → s ∈ rs :=
          fun s hs1 hs2 => of_decide_eq_true (h3 s hs1 hs2)
        have hcntrow := countGe_split rs k (rs.getD k 0) htklt hdgek (by omega)
        have hcntint := countGe_all_in rs hnd (rs.getD k 0) e (by omega) hrowmem_all
        have hef : ef0 = L - rs.length := by
          rw [h2]
          omega
        refine ⟨ef0, acc, rfl, hef, ?_, haccsrc, ?_⟩
        · rw [haccsnd, h2]
          exact (filter_lt_eq_take rs k (rs.getD k 0) htklt hdgek).symm
        · intro p hp
          obtain ⟨ha1, ha2, ha3⟩ := hacc p hp
          exact ⟨ha3, by omega, ha2⟩
    | inr e1 =>
      obtain ⟨h1, h2, h3, h4⟩ := denseInner_inr_spec _ _ e e1 hDI
      have he1notin : e1 ∉ rs := of_decide_eq_false h3
      have hrowin : rs.getD k 0 ∈ rs := by
        rw [getD_eq_getElem_of_lt rs k hklt]
        exact List.mem_iff_getElem.mpr ⟨k, hklt, rfl⟩
      have hrowlt : rs.getD k 0 < e1 := by
        rcases Nat.lt_or_ge (rs.getD k 0) e1 with h | h
        · exact h
        · have heq1 : rs.getD k 0 = e1 := by omega
          exact absurd (heq1 ▸ hrowin) he1notin
      have hall : ∀ s, e1 < s → s < e → s ∈ rs :=
        fun s hs1 hs2 => of_decide_eq_true (h4 s hs1 hs2)
      have hcnt1 := countGe_all_in_except rs hnd e1 e h1 he1notin hall
      have htake1 : ∀ x ∈ rs.take (k + 1), x < e1 := by
        intro x hx
        have h0 := mem_take_le_getD rs hsort k hklt x hx
        omega
      have haccsnd1 : (acc ++ [(e1, rs.getD k 0)]).map Prod.snd = rs.take (k + 1) := by
        rw [List.map_append, haccsnd, List.take_succ, List.getElem?_eq_getElem hklt,
          getD_eq_getElem_of_lt rs k hklt]
        rfl
      have haccsrc1 :
          List.Pairwise (· > ·) ((acc ++ [(e1, rs.getD k 0)]).map Prod.fst) := by
        rw [List.map_append, List.pairwise_append]
        refine ⟨haccsrc, List.pairwise_singleton _ _, ?_⟩
        intro a ha b hb
        rw [List.mem_map] at ha
        obtain ⟨p, hp, hpa⟩ := ha
        simp only [List.map_cons, List.map_nil, List.mem_singleton] at hb
        have h0 := (hacc p hp).1
        rw [hpa] at h0
        rw [hb]
        exact Nat.lt_of_lt_of_le h1 h0
      have hacc1 : ∀ p ∈ acc ++ [(e1, rs.getD k 0)],
          e1 ≤ p.1 ∧ p.1 < L ∧ p.1 ∉ rs := by
        intro p hp
        rcases List.mem_append.mp hp with h0 | h0
        · obtain ⟨ha1, ha2, ha3⟩ := hacc p h0
          exact ⟨by omega, ha2, ha3⟩
        · rw [List.mem_singleton] at h0
          rw [h0]
          exact ⟨Nat.le_refl _, show e1 < L from by omega, he1notin⟩
      obtain ⟨ef, accf, heq, hef, hsnd, hsrcf, hpropsf⟩ :=
        ih (k + 1) e1 (acc ++ [(e1, rs.getD k 0)]) (by omega) (by omega) (by omega)
          htake1 haccsnd1 haccsrc1 hacc1
      exact ⟨ef, accf, heq, hef, hsnd, hsrcf, hpropsf⟩

/-- C1: for every removal queue of R > 0 pairwise distinct rows, each
below the entity count L, Table::removes_action returns 0 when R >= L and
L - R otherwise, and its (src, dst) move pairs have pairwise distinct
source rows that are live (not removed), at or above the new length and
below L, while the destinations are exactly the removed slots below the
new length in ascending order (a removed row in the tail is skipped
rather than paired).  Proved for both compaction strategies. -/
theorem removes_action_spec (removes : List Row) (L : Nat) (sparse : Bool)
    (hnd : removes.Nodup) (hbound : ∀ r ∈ removes, r < L) (hne : removes ≠ []) :
    ((removes.length ≥ L → (Table.removes_action removes removes.length L sparse).1 = 0)
      ∧ (removes.length < L →
          (Table.removes_action removes removes.length L sparse).1 = L - removes.length))
    ∧ ((Table.removes_action removes removes.length L sparse).2.map Prod.fst).Nodup
    ∧ (∀ p ∈ (Table.removes_action removes removes.length L sparse).2,
        p.1 ∉ removes
          ∧ (Table.removes_action removes removes.length L sparse).1 ≤ p.1
          ∧ p.1 < L)
    ∧ (Table.removes_action removes removes.length L sparse).2.map Prod.snd
        = (List.insertionSort (· ≤ ·) removes).filter
            (fun r => decide (r < (Table.removes_action removes removes.length L sparse).1)) := by
  by_cases hRL : removes.length ≥ L
  · have hres : Table.removes_action removes removes.length L sparse = (0, []) := by
      simp only [Table.removes_action]
      rw [if_pos hRL]
    rw [hres]
    refine ⟨⟨fun _ => rfl, fun h => absurd h (Nat.not_lt.mpr hRL)⟩, List.nodup_nil, ?_, ?_⟩
    · intro p hp
      exact absurd hp (List.not_mem_nil p)
    · exact (List.filter_eq_nil_iff.mpr
        (fun a ha hdec => absurd (of_decide_eq_true hdec) (Nat.not_lt_zero a))).symm
  · by_cases hR1 : removes.length = 1
    · obtain ⟨r0, hr0⟩ : ∃ a : Nat, removes = [a] := List.length_eq_one.mp hR1
      subst hr0
      have hr0L : r0 < L := hbound r0 (List.mem_cons_self r0 [])
      by_cases hr0tail : r0 + 1 < L
      · have hres : Table.removes_action [r0] ([r0] : List Row).length L sparse
            = (L - 1, [(L - 1, r0)]) := by
          simp only [Table.removes_action]
          rw [if_neg hRL, if_pos (show ([r0] : List Row).length = 1 from rfl),
            if_pos (show ([r0] : List Row).headD 0 + 1 < L from hr0tail)]
          rfl
        rw [hres]
        refine ⟨⟨fun h => absurd h hRL, fun _ => by
            simp only [List.length_singleton]⟩, ?_, ?_, ?_⟩
        · exact List.nodup_singleton _
        · intro p hp
          have hp2 : p = (L - 1, r0) := List.mem_singleton.mp hp
          subst hp2
          refine ⟨?_, Nat.le_refl _, show L - 1 < L from by omega⟩
          intro hc
          have hc2 : L - 1 = r0 := List.mem_singleton.mp hc
          omega
        · show [r0] = (List.insertionSort (· ≤ ·) [r0]).filter
            (fun r => decide (r < L - 1))
          rw [show List.insertionSort (· ≤ ·) [r0] = [r0] from rfl, List.filter_cons,
            if_pos (decide_eq_true (show r0 < L - 1 from by omega)), List.filter_nil]
      · have hres : Table.removes_action [r0] ([r0] : List Row).length L sparse
            = (L - 1, []) := by
          simp only [Table.removes_action]
          rw [if_neg hRL, if_pos (show ([r0] : List Row).length = 1 from rfl),
            if_neg (show ¬(([r0] : List Row).headD 0 + 1 < L) from hr0tail)]
        rw [hres]
        refine ⟨⟨fun h => absurd h hRL, fun _ => by
            simp only [List.length_singleton]⟩, List.nodup_nil, ?_, ?_⟩
        · intro p hp
          exact absurd hp (List.not_mem_nil p)
        · show ([] : List Row) = (List.insertionSort (· ≤ ·) [r0]).filter
            (fun r => decide (r < L - 1))
          rw [show List.insertionSort (· ≤ ·) [r0] = [r0] from rfl, List.filter_cons,
            if_neg (show ¬decide (r0 < L - 1) = true from by
              rw [decide_eq_false (show ¬r0 < L - 1 from by omega)]
              exact Bool.false_ne_true), List.filter_nil]
    · obtain ⟨rs, hrsdef⟩ : ∃ rs : List Row, List.insertionSort (· ≤ ·) removes = rs :=
        ⟨_, rfl⟩
      rw [hrsdef]
      have hperm : rs.Perm removes := hrsdef ▸ List.perm_insertionSort (· ≤ ·) removes
      have hsorted : List.Pairwise (· ≤ ·) rs :=
        hrsdef ▸ List.sorted_insertionSort (· ≤ ·) removes
      have hndrs : rs.Nodup := hperm.nodup_iff.mpr hnd
      have hstrict : List.Pairwise (· < ·) rs :=
        (hsorted.and hndrs).imp (fun h => lt_of_le_of_ne h.1 h.2)
      have hlen : rs.length = removes.length := hperm.length_eq
      have hboundrs : ∀ x ∈ rs, x < L := fun x hx => hbound x (hperm.mem_iff.mp hx)
      have hmemiff : ∀ x : Nat, x ∈ rs ↔ x ∈ removes := fun x => hperm.mem_iff
      have main : ∃ Pf : List (Row × Row),
          Table.removes_action removes removes.length L sparse = (L - rs.length, Pf)
            ∧ Pf.map Prod.snd = rs.filter (fun r => decide (r < L - rs.length))
            ∧ List.Pairwise (· > ·) (Pf.map Prod.fst)
            ∧ ∀ p ∈ Pf, p.1 ∉ rs ∧ L - rs.length ≤ p.1 ∧ p.1 < L := by
        cases sparse with
        | true =>
          have hres0 : Table.removes_action removes removes.length L true
              = sparseLoop 0 (rs.map (fun r => (r, r))).length L
                  (rs.map (fun r => (r, r))) := by
            simp only [Table.removes_action]
            rw [if_neg hRL, if_neg hR1, if_pos trivial, hrsdef]
          obtain ⟨Pf, heq, hsnd, hsrc, hprops⟩ :=
            sparseLoop_spec rs L hstrict rs.length 0 rs.length L [] rfl rfl
              (Nat.zero_le _) (Nat.le_refl _) (by omega)
              (fun x hx => hboundrs x (by rw [List.take_length] at hx; exact hx))
              (fun x hx => absurd hx (by
                rw [List.drop_length]
                exact List.not_mem_nil x))
              rfl List.Pairwise.nil
              (fun p hp => absurd hp (List.not_mem_nil p))
              (fun p hp => absurd hp (List.not_mem_nil p))
              (fun p hp => absurd hp (List.not_mem_nil p))
          rw [List.drop_zero, List.nil_append] at heq
          refine ⟨Pf, ?_, hsnd, hsrc, hprops⟩
          rw [hres0, List.length_map]
          exact heq
        | false =>
          have hres0 : Table.removes_action removes removes.length L false
              = denseGo (fun i => decide (i ∈ removes)) rs.dedup L [] := by
            simp only [Table.removes_action]
            rw [if_neg hRL, if_neg hR1,
              if_neg (show ¬(false = true) from Bool.false_ne_true), hrsdef]
          have hded : rs.dedup = rs := List.dedup_eq_self.mpr hndrs
          have hmemf : (fun i => decide (i ∈ removes))
              = (fun i => decide (i ∈ rs)) :=
            funext (fun i => decide_eq_decide.mpr (hmemiff i).symm)
          have hcnt0 : rs.filter (fun x => decide (L ≤ x)) = [] :=
            List.filter_eq_nil_iff.mpr
              (fun a ha hdec =>
                absurd (of_decide_eq_true hdec) (Nat.not_le.mpr (hboundrs a ha)))
          obtain ⟨ef, accf, heq, hef, hsnd, hsrc, hprops⟩ :=
            denseGo_spec rs L hstrict hndrs rs.length 0 L [] rfl (Nat.zero_le _)
              (by rw [hcnt0]; rfl)
              (fun x hx => absurd hx (by
                rw [List.take_zero]
                exact List.not_mem_nil x))
              rfl List.Pairwise.nil
              (fun p hp => absurd hp (List.not_mem_nil p))
          subst hef
          rw [List.drop_zero] at heq
          refine ⟨accf, ?_, hsnd, hsrc, hprops⟩
          rw [hres0, hded, hmemf]
          exact heq
      obtain ⟨Pf, hres, hsnd, hsrc, hprops⟩ := main
      rw [hres]
      refine ⟨⟨fun h => absurd h hRL, fun _ => ?_⟩, ?_, ?_, ?_⟩
      · show L - rs.length = L - removes.length
        rw [hlen]
      · exact hsrc.imp (fun h => (Nat.ne_of_lt h).symm)
      · intro p hp
        obtain ⟨h1, h2, h3⟩ := hprops p hp
        exact ⟨fun hc => h1 ((hmemiff p.1).mpr hc), h2, h3⟩
      · exact hsnd

/-- Concrete instance of removes_action_spec: removing rows 2, 5 and 7
from a table of 10 entities leaves length 7. -/
theorem removes_action_spec_witness :
    ([2, 5, 7] : List Row).Nodup
      ∧ (Table.removes_action [2, 5, 7] ([2, 5, 7] : List Row).length 10 true).1
          = 10 - ([2, 5, 7] : List Row).length :=
  ⟨by decide,
    (removes_action_spec [2, 5, 7] 10 true (by decide) (by decide) (by decide)).1.2
      (by decide)⟩
